import Mathlib

/-!
Shallow embedding of the rustsh command-line tokenizer and parser
(src/tokenizer.rs and src/parser.rs), together with theorems checking the
specification's claims about them.

Representation choices:
* The Rust code scans a char vector `c` with an offset; every access is to
  `c[offset + k]` for small `k`, and every produced offset is a position
  `≤ len`.  The embedding therefore carries the remaining suffix
  `List Char` instead of the pair (vector, offset); "offset = len" becomes
  "remaining = []".
* `fail`/`assert` and out-of-bounds indexing are modelled by `Option`:
  a `none` result is an abort of the Rust program.  Loops whose progress is
  not structurally evident take a fuel argument; exhausted fuel is also
  `none` (the Rust loop not terminating).  Top-level entry points supply
  fuel `length + 1`, and the totality theorems show this never runs out on
  the stated inputs.
-/

namespace Rustsh

/-- Tokens produced by the tokenizer (tokenizer.rs, `enum token`). -/
inductive Token where
  | string (s : String)
  | pipe
  | redirect_output (s : String)
  | redirect_error (s : String)
  | redirect_error_to_output
  | redirect_input (s : String)
  | and
  | or
  | background
  | sequence
  | open_subshell
  | close_subshell
  | continuation
  | error (s : String)
deriving DecidableEq

/-- A token is the tokenizer's `error` variant. -/
def Token.isErr : Token → Bool
  | .error _ => true
  | _ => false

/-- tokenizer.rs `type consumption`: the consumed token and the new offset,
here represented by the remaining suffix of the character list. -/
structure Consumption where
  t : Token
  rest : List Char
deriving DecidableEq

/-- The single-quote character (code point 39). -/
def squote : Char := Char.ofNat 39

/-- tokenizer.rs `is_token_separator`: whitespace, an operator character, or
a backslash that is the last character of the input.  `none` models the
out-of-bounds access `c[offset]` when called at the end of the input. -/
def is_token_separator : List Char → Option Bool
  | [] => none
  | ch :: r =>
    if ch.isWhitespace then some true
    else if ch = '<' ∨ ch = '>' ∨ ch = ';' ∨ ch = '&' ∨ ch = '|' ∨ ch = '(' ∨ ch = ')' then
      some true
    else if ch = '\\' then some (r = [])
    else some false

/-- tokenizer.rs `consume_whitespace`: skip a maximal run of whitespace
(the string token it builds from the skipped run is never used by any
caller, so only the remaining suffix is kept). -/
def consume_whitespace : List Char → List Char
  | [] => []
  | ch :: r => if ch.isWhitespace then consume_whitespace r else ch :: r

/-- The scanning loop of `consume_singleq`: copy characters verbatim up to
the next single quote; `none` when the input ends first. -/
def singleq_scan : List Char → Option (List Char × List Char)
  | [] => none
  | ch :: r =>
    if ch = squote then some ([], r)
    else (fun p => (ch :: p.1, p.2)) <$> singleq_scan r

/-- tokenizer.rs `consume_singleq` (asserts the head is a single quote). -/
def consume_singleq : List Char → Option Consumption
  | ch :: r =>
    if ch = squote then
      some (match singleq_scan r with
        | none => ⟨.error "Missing \x27.", []⟩
        | some (content, rem) => ⟨.string (String.mk content), rem⟩)
    else none
  | [] => none

/-- The scanning loop of `consume_doubleq`: copy characters up to the
closing double quote, resolving the escape pairs backslash-quote and
backslash-backslash and copying any other backslash pair literally;
`none` when the input ends before a closing quote. -/
def doubleq_scan : List Char → Option (List Char × List Char)
  | [] => none
  | '"' :: r => some ([], r)
  | '\\' :: x :: r =>
    (fun p => ((if x = '"' then ['"'] else if x = '\\' then ['\\'] else ['\\', x]) ++ p.1, p.2))
      <$> doubleq_scan r
  | ch :: r => (fun p => (ch :: p.1, p.2)) <$> doubleq_scan r

/-- tokenizer.rs `consume_doubleq` (asserts the head is a double quote). -/
def consume_doubleq : List Char → Option Consumption
  | '"' :: r =>
    some (match doubleq_scan r with
      | none => ⟨.error "Missing \".", []⟩
      | some (content, rem) => ⟨.string (String.mk content), rem⟩)
  | _ => none

/-- The word-scanning loop of `consume_string`: accumulate characters until
a token separator, entering quote scanning at quote characters.  A lexical
error from a quoted segment is returned as is; the impossible token shapes
from the quote scanners are the Rust `fail` branches, i.e. `none`. -/
def consume_string_loop : Nat → List Char → String → Option Consumption
  | 0, _, _ => none
  | _ + 1, [], s => some ⟨.string s, []⟩
  | fuel + 1, ch :: r, s =>
    match is_token_separator (ch :: r) with
    | none => none
    | some true => some ⟨.string s, ch :: r⟩
    | some false =>
      if ch = '"' then
        match consume_doubleq (ch :: r) with
        | some ⟨.string qs, rem⟩ => consume_string_loop fuel rem (s ++ qs)
        | some ⟨.error e, rem⟩ => some ⟨.error e, rem⟩
        | _ => none
      else if ch = squote then
        match consume_singleq (ch :: r) with
        | some ⟨.string qs, rem⟩ => consume_string_loop fuel rem (s ++ qs)
        | some ⟨.error e, rem⟩ => some ⟨.error e, rem⟩
        | _ => none
      else consume_string_loop fuel r (s.push ch)

/-- tokenizer.rs `consume_string`. -/
def consume_string (rest : List Char) : Option Consumption :=
  consume_string_loop (rest.length + 1) rest ""

/-- tokenizer.rs `consume_redirect_output` (asserts the head is `>`). -/
def consume_redirect_output : List Char → Option Consumption
  | '>' :: r =>
    match consume_string (consume_whitespace r) with
    | some ⟨.string file_name, rem⟩ =>
      if file_name.length > 0 then some ⟨.redirect_output file_name, rem⟩
      else some ⟨.error "No output file specified.", []⟩
    | some _ => some ⟨.error "Could not parse file name for output redirection.", []⟩
    | none => none
  | _ => none

/-- tokenizer.rs `consume_redirect_input` (asserts the head is `<`). -/
def consume_redirect_input : List Char → Option Consumption
  | '<' :: r =>
    match consume_string (consume_whitespace r) with
    | some ⟨.string file_name, rem⟩ =>
      if file_name.length > 0 then some ⟨.redirect_input file_name, rem⟩
      else some ⟨.error "No input file specified.", []⟩
    | some _ => some ⟨.error "Could not parse file name for input redirection.", []⟩
    | none => none
  | _ => none

/-- tokenizer.rs `consume_redirect_error` (asserts the input starts `2>`). -/
def consume_redirect_error : List Char → Option Consumption
  | '2' :: '>' :: r =>
    match consume_string (consume_whitespace r) with
    | some ⟨.string file_name, rem⟩ =>
      if file_name.length > 0 then some ⟨.redirect_error file_name, rem⟩
      else some ⟨.error "No error file specified.", []⟩
    | some _ => some ⟨.error "Could not parse file name for error redirection.", []⟩
    | none => none
  | _ => none

/-- tokenizer.rs `consume_two`: `2>&1` followed by a separator or the end of
input is `redirect_error_to_output`; otherwise `2>` starts an error
redirection, and a plain `2` starts an ordinary word. -/
def consume_two : List Char → Option Consumption
  | '2' :: '>' :: '&' :: '1' :: r4 =>
    if r4 = [] then some ⟨.redirect_error_to_output, []⟩
    else
      match is_token_separator r4 with
      | some true => some ⟨.redirect_error_to_output, r4⟩
      | some false => consume_redirect_error ('2' :: '>' :: '&' :: '1' :: r4)
      | none => none
  | '2' :: '>' :: r => consume_redirect_error ('2' :: '>' :: r)
  | '2' :: r => consume_string ('2' :: r)
  | _ => none

/-- tokenizer.rs `consume_or` (fails unless the input starts with `||`). -/
def consume_or : List Char → Option Consumption
  | '|' :: '|' :: r => some ⟨.or, r⟩
  | _ => none

/-- tokenizer.rs `consume_pipe` (asserts the head is `|`). -/
def consume_pipe : List Char → Option Consumption
  | '|' :: r => some ⟨.pipe, r⟩
  | _ => none

/-- tokenizer.rs `consume_pipechar`: `||` or `|`. -/
def consume_pipechar (rest : List Char) : Option Consumption :=
  match rest with
  | '|' :: '|' :: _ => consume_or rest
  | '|' :: _ => consume_pipe rest
  | _ => none

/-- tokenizer.rs `consume_and` (fails unless the input starts with `&&`). -/
def consume_and : List Char → Option Consumption
  | '&' :: '&' :: r => some ⟨.and, r⟩
  | _ => none

/-- tokenizer.rs `consume_background` (asserts the head is `&`). -/
def consume_background : List Char → Option Consumption
  | '&' :: r => some ⟨.background, r⟩
  | _ => none

/-- tokenizer.rs `consume_ampersand`: `&&` or `&`. -/
def consume_ampersand (rest : List Char) : Option Consumption :=
  match rest with
  | '&' :: '&' :: _ => consume_and rest
  | '&' :: _ => consume_background rest
  | _ => none

/-- tokenizer.rs `consume_sequence` (asserts the head is `;`). -/
def consume_sequence : List Char → Option Consumption
  | ';' :: r => some ⟨.sequence, r⟩
  | _ => none

/-- tokenizer.rs `consume_open_subshell` (asserts the head is `(`). -/
def consume_open_subshell : List Char → Option Consumption
  | '(' :: r => some ⟨.open_subshell, r⟩
  | _ => none

/-- tokenizer.rs `consume_close_subshell` (asserts the head is `)`). -/
def consume_close_subshell : List Char → Option Consumption
  | ')' :: r => some ⟨.close_subshell, r⟩
  | _ => none

/-- The dispatch `alt` of tokenizer.rs `consume_token`: pick the consumer
from the current character.  Called only with a nonempty remainder (the
out-of-bounds dispatch access is `none`). -/
def consume_token_dispatch : List Char → Option Consumption
  | [] => none
  | ch :: r =>
    if ch = '|' then consume_pipechar (ch :: r)
    else if ch = '>' then consume_redirect_output (ch :: r)
    else if ch = '<' then consume_redirect_input (ch :: r)
    else if ch = '&' then consume_ampersand (ch :: r)
    else if ch = '2' then consume_two (ch :: r)
    else if ch = ';' then consume_sequence (ch :: r)
    else if ch = '(' then consume_open_subshell (ch :: r)
    else if ch = ')' then consume_close_subshell (ch :: r)
    else if ch = '\\' then
      if r = [] then some ⟨.continuation, r⟩ else consume_string (ch :: r)
    else consume_string (ch :: r)

/-- tokenizer.rs `consume_token`: dispatch on the current character, then
skip trailing whitespace. -/
def consume_token (rest : List Char) : Option Consumption :=
  (consume_token_dispatch rest).map
    (fun t => ⟨t.t, consume_whitespace t.rest⟩ : Consumption → Consumption)

/-- The scanning loop of `tokenize`: consume tokens while characters
remain. -/
def tokenize_loop : Nat → List Char → List Token → Option (List Token)
  | 0, _, _ => none
  | fuel + 1, rest, acc =>
    if rest = [] then some acc
    else
      match consume_token rest with
      | none => none
      | some t => tokenize_loop fuel t.rest (acc ++ [t.t])

/-- tokenizer.rs `tokenize`: skip leading whitespace, then consume tokens
until the input is exhausted. -/
def tokenize (cmd_line : String) : Option (List Token) :=
  let rest := consume_whitespace cmd_line.data
  tokenize_loop (rest.length + 1) rest []

/-- parser.rs `enum output_sink`. -/
inductive OutputSink where
  | stdout
  | stderr
  | outfile (s : String)
deriving DecidableEq

/-- parser.rs `enum input_source`. -/
inductive InputSource where
  | stdin
  | infile (s : String)
deriving DecidableEq

/-- parser.rs `type command`. -/
structure Command where
  args : List String
  input : InputSource
  output : OutputSink
  error : OutputSink
deriving DecidableEq

/-- parser.rs `enum command_line` (the `background` payload is boxed in the
source; the box is ownership bookkeeping only). -/
inductive CommandLine where
  | singleton (c : Command)
  | pipeline (cls : List CommandLine)
  | sequence (cls : List CommandLine)
  | background (cl : CommandLine)
  | and (cls : List CommandLine)
  | or (cls : List CommandLine)

/-- parser.rs `enum parse_result`. -/
inductive ParseResult where
  | parsed (cl : CommandLine)
  | continuation_required
  | error (s : String)

/-- Modelled from the spec: parser.rs imports `token_to_string` from the
tokenizer module, but no definition of it appears under src/.  Section 4.2
of the spec only says an out-of-vocabulary token makes `make_command` fail
with "Unexpected token: <rendering>", leaving the rendering unspecified; it
is modelled as a fixed rendering of each token variant.  No claim depends
on the rendered text. -/
def token_to_string : Token → String
  | .string s => s
  | .pipe => "|"
  | .redirect_output s => "> " ++ s
  | .redirect_error s => "2> " ++ s
  | .redirect_error_to_output => "2>&1"
  | .redirect_input s => "< " ++ s
  | .and => "&&"
  | .or => "||"
  | .background => "&"
  | .sequence => ";"
  | .open_subshell => "("
  | .close_subshell => ")"
  | .continuation => "\\"
  | .error s => s

/-- The token loop of parser.rs `make_command`, threading the mutable
`args`/`i`/`o`/`e` locals. -/
def make_command_loop : List Token → List String → InputSource → OutputSink → OutputSink →
    Sum Command String
  | [], args, i, o, e => Sum.inl ⟨args, i, o, e⟩
  | t :: ts, args, i, o, e =>
    match t with
    | .string s => make_command_loop ts (args ++ [s]) i o e
    | .redirect_output s =>
      if o ≠ .stdout then Sum.inr "Multiple output redirects."
      else make_command_loop ts args i (.outfile s) e
    | .redirect_error s =>
      if e ≠ .stderr then Sum.inr "Multiple error redirects."
      else make_command_loop ts args i o (.outfile s)
    | .redirect_error_to_output =>
      if e ≠ .stderr then Sum.inr "Multiple error redirects."
      else make_command_loop ts args i o o
    | .redirect_input s =>
      if i ≠ .stdin then Sum.inr "Multiple input redirects."
      else make_command_loop ts args (.infile s) o e
    | other => Sum.inr ("Unexpected token: " ++ token_to_string other)

/-- parser.rs `make_command` (the leading assert that the token run is
non-empty is the `none` case). -/
def make_command (tokens : List Token) : Option (Sum Command String) :=
  if tokens = [] then none
  else some (make_command_loop tokens [] .stdin .stdout .stderr)

/-- parser.rs `enum part_parse`. -/
inductive PartParse where
  | cmd (c : Command)
  | subshell (cl : CommandLine)
  | sep (t : Token)

/-- parser.rs `part_to_cl` (`fail` on a separator part is `none`). -/
def part_to_cl : PartParse → Option CommandLine
  | .cmd c => some (.singleton c)
  | .subshell cl => some cl
  | .sep _ => none

/-- parser.rs `append_to_cl` (`fail` on a singleton is `none`). -/
def append_to_cl (cl : CommandLine) (p : PartParse) : Option CommandLine :=
  match cl with
  | .singleton _ => none
  | .pipeline args => (part_to_cl p).map (fun x => .pipeline (args ++ [x]))
  | .sequence args => (part_to_cl p).map (fun x => .sequence (args ++ [x]))
  | .background b => (part_to_cl p).map (fun x => .sequence [.background b, x])
  | .and args => (part_to_cl p).map (fun x => .and (args ++ [x]))
  | .or args => (part_to_cl p).map (fun x => .or (args ++ [x]))

/-- The walk over the remaining parts in parser.rs `finish_parse`, carrying
the running node and the `cmd_required`/`cmd_allowed` flags. -/
def finish_loop : List PartParse → CommandLine → Bool → Bool → Option ParseResult
  | [], cur, req, _ =>
    some (if req then .error "Missing command at end of line." else .parsed cur)
  | p :: ps, cur, req, allowed =>
    match p with
    | .cmd _ | .subshell _ =>
      if allowed = false then some (.error "Found a command where a separator was expected.")
      else
        match append_to_cl cur p with
        | none => none
        | some cur2 => finish_loop ps cur2 false false
    | .sep t =>
      if req = true then some (.error "Found a separator where a command was expected.")
      else
        match t with
        | .pipe =>
          finish_loop ps (match cur with | .pipeline l => .pipeline l | _ => .pipeline [cur])
            true true
        | .and =>
          finish_loop ps (match cur with | .and l => .and l | _ => .and [cur]) true true
        | .or =>
          finish_loop ps (match cur with | .or l => .or l | _ => .or [cur]) true true
        | .background => finish_loop ps (.background cur) false true
        | .sequence =>
          finish_loop ps (match cur with | .sequence l => .sequence l | _ => .sequence [cur])
            true true
        | _ => none

/-- parser.rs `finish_parse` (the assert that `parts` is non-empty, and the
`fail` branches reached through `part_to_cl`, are `none`). -/
def finish_parse (parts : List PartParse) : Option ParseResult :=
  match parts with
  | [] => none
  | p0 :: rest =>
    match p0 with
    | .sep _ => some (.error "No initial command.")
    | _ =>
      match part_to_cl p0 with
      | none => none
      | some cur =>
        match rest with
        | [] => some (.parsed cur)
        | _ => finish_loop rest cur false false

/-- The `#make_command` macro of parser.rs `parse_tokens`: flush the pending
word buffer into a command part when it is non-empty. -/
def flush_cmd (cur : List Token) (parts : List PartParse) :
    Option (Sum (List PartParse) String) :=
  if cur = [] then some (Sum.inl parts)
  else
    match make_command cur with
    | none => none
    | some (Sum.inl c) => some (Sum.inl (parts ++ [.cmd c]))
    | some (Sum.inr e) => some (Sum.inr e)

/-- parser.rs `parse_tokens`.  The mutable shared index becomes the second
component of the result: the remaining suffix of the token list at the
moment the call returns (a level that finds its closing parenthesis returns
with that token still at the head; the caller steps past it).  `fail`
branches — in particular the "Inconceivable!" case of a continuation result
from a nested level — and exhausted fuel are `none`. -/
def parse_tokens : Nat → List Token → Nat → List PartParse → List Token →
    Option (ParseResult × List Token)
  | 0, _, _, _, _ => none
  | _ + 1, [], level, parts, cur =>
    if level > 0 then some (.error "Expected \x27)\x27", [])
    else
      match flush_cmd cur parts with
      | none => none
      | some (Sum.inr e) => some (.error e, [])
      | some (Sum.inl parts2) =>
        match finish_parse parts2 with
        | none => none
        | some r => some (r, [])
  | fuel + 1, t :: rest, level, parts, cur =>
    match t with
    | .error e => some (.error e, t :: rest)
    | .pipe | .and | .or | .background | .sequence =>
      match flush_cmd cur parts with
      | none => none
      | some (Sum.inr e) => some (.error e, t :: rest)
      | some (Sum.inl parts2) => parse_tokens fuel rest level (parts2 ++ [.sep t]) []
    | .open_subshell =>
      match flush_cmd cur parts with
      | none => none
      | some (Sum.inr e) => some (.error e, t :: rest)
      | some (Sum.inl parts2) =>
        match parse_tokens fuel rest (level + 1) [] [] with
        | none => none
        | some (.parsed cl, rem) => parse_tokens fuel rem.tail level (parts2 ++ [.subshell cl]) []
        | some (.error e, rem) => some (.error e, rem)
        | some (.continuation_required, _) => none
    | .close_subshell =>
      if level = 0 then some (.error "Unexpected \x27)\x27.", t :: rest)
      else
        match flush_cmd cur parts with
        | none => none
        | some (Sum.inr e) => some (.error e, t :: rest)
        | some (Sum.inl parts2) =>
          match finish_parse parts2 with
          | none => none
          | some r => some (r, t :: rest)
    | .continuation => parse_tokens fuel rest level parts cur
    | _ => parse_tokens fuel rest level parts (cur ++ [t])

/-- parser.rs `parse`: empty input is an empty sequence, a trailing
continuation token asks the caller for more input, and otherwise the token
list is parsed at nesting level 0. -/
def parse (tokens : List Token) : Option ParseResult :=
  if tokens = [] then some (.parsed (.sequence []))
  else if tokens.getLast? = some .continuation then some .continuation_required
  else (parse_tokens (tokens.length + 1) tokens 0 [] []).map (fun p => p.1)

/-- Spec 3 (data model): a variadic AST node — `pipeline`, `sequence`,
`and`, `or` — holds at least `n` children, everywhere in the tree
(`n = 1` is the spec's stated invariant; `n = 2` is the strengthening the
parser actually establishes for non-empty input). -/
inductive MinArity (n : Nat) : CommandLine → Prop
  | singleton (c : Command) : MinArity n (.singleton c)
  | pipeline (cls : List CommandLine) : n ≤ cls.length →
      (∀ cl ∈ cls, MinArity n cl) → MinArity n (.pipeline cls)
  | sequence (cls : List CommandLine) : n ≤ cls.length →
      (∀ cl ∈ cls, MinArity n cl) → MinArity n (.sequence cls)
  | background (cl : CommandLine) : MinArity n cl → MinArity n (.background cl)
  | and (cls : List CommandLine) : n ≤ cls.length →
      (∀ cl ∈ cls, MinArity n cl) → MinArity n (.and cls)
  | or (cls : List CommandLine) : n ≤ cls.length →
      (∀ cl ∈ cls, MinArity n cl) → MinArity n (.or cls)

/-- Invariant of the running node right after a non-background separator was
folded in (`cmd_required` is set): the node is variadic, its children all
satisfy `MinArity n`, and one more child suffices to reach arity `n`. -/
def GoodSep (n : Nat) : CommandLine → Prop
  | .pipeline cls => n - 1 ≤ cls.length ∧ ∀ cl ∈ cls, MinArity n cl
  | .sequence cls => n - 1 ≤ cls.length ∧ ∀ cl ∈ cls, MinArity n cl
  | .and cls => n - 1 ≤ cls.length ∧ ∀ cl ∈ cls, MinArity n cl
  | .or cls => n - 1 ≤ cls.length ∧ ∀ cl ∈ cls, MinArity n cl
  | _ => False

/-- Where a remaining-suffix of the token list without the stray
continuation token sits inside the token list with it: unchanged if the
scan already passed the continuation, else with the continuation token
re-inserted before the tail `ys`. -/
def reinsert_cont (ys rem : List Token) : List Token :=
  if rem.length ≤ ys.length then rem
  else rem.take (rem.length - ys.length) ++ Token.continuation :: ys

/-- C1: the spec claims `parse` is total — it always returns one of the
three `ParseResult`s and the non-empty-parts precondition of finalization
holds whenever finalization is reached.  The code violates this: on the
token sequence `[open_subshell, close_subshell]` (which `tokenize`
produces from the ordinary input "()") the nested parsing level reaches
`finish_parse` with an empty parts list and fails its assertion, which in
this embedding is the `none` result (the fuel supplied by `parse`, 3,
exceeds the token count, so `none` is the assertion failure, not fuel
exhaustion). -/
theorem c1_parse_aborts_on_empty_subshell :
    tokenize "()" = some [Token.open_subshell, Token.close_subshell] ∧
    parse [Token.open_subshell, Token.close_subshell] = none ∧
    finish_parse [] = none :=
  ⟨by decide, rfl, rfl⟩

/-- C2 counterexample: the claim quantifies over every token sequence on
which a parse completes, but the empty token sequence parses to
`sequence []`, a variadic node with zero children. -/
theorem c2_counterexample :
    parse [] = some (ParseResult.parsed (CommandLine.sequence [])) ∧
    ¬ MinArity 1 (CommandLine.sequence []) := by
  refine ⟨rfl, fun h => ?_⟩
  cases h with
  | sequence _ h1 _ => simp at h1

/-- C4: a separator token captures the entire left-hand accumulation: a
running node that is already the same operator's variadic variant is kept,
any other running node is wrapped as the sole element of a fresh variadic
node of that operator's kind; consequently `foo && bar && baz` parses to a
flattened `and` of three commands and `foo && bar | baz` parses to
`pipeline([and([foo, bar]), baz])`. -/
theorem c4_separator_captures_accumulation :
    (∀ (l : List CommandLine) (ps : List PartParse) (a : Bool),
      finish_loop (PartParse.sep Token.pipe :: ps) (CommandLine.pipeline l) false a =
        finish_loop ps (CommandLine.pipeline l) true true) ∧
    (∀ (cur : CommandLine) (ps : List PartParse) (a : Bool),
      (∀ l, cur ≠ CommandLine.pipeline l) →
      finish_loop (PartParse.sep Token.pipe :: ps) cur false a =
        finish_loop ps (CommandLine.pipeline [cur]) true true) ∧
    (∀ (l : List CommandLine) (ps : List PartParse) (a : Bool),
      finish_loop (PartParse.sep Token.and :: ps) (CommandLine.and l) false a =
        finish_loop ps (CommandLine.and l) true true) ∧
    (∀ (cur : CommandLine) (ps : List PartParse) (a : Bool),
      (∀ l, cur ≠ CommandLine.and l) →
      finish_loop (PartParse.sep Token.and :: ps) cur false a =
        finish_loop ps (CommandLine.and [cur]) true true) ∧
    parse [Token.string "foo", Token.and, Token.string "bar", Token.and, Token.string "baz"] =
      some (ParseResult.parsed (CommandLine.and
        [CommandLine.singleton ⟨["foo"], .stdin, .stdout, .stderr⟩,
         CommandLine.singleton ⟨["bar"], .stdin, .stdout, .stderr⟩,
         CommandLine.singleton ⟨["baz"], .stdin, .stdout, .stderr⟩])) ∧
    parse [Token.string "foo", Token.and, Token.string "bar", Token.pipe, Token.string "baz"] =
      some (ParseResult.parsed (CommandLine.pipeline
        [CommandLine.and
          [CommandLine.singleton ⟨["foo"], .stdin, .stdout, .stderr⟩,
           CommandLine.singleton ⟨["bar"], .stdin, .stdout, .stderr⟩],
         CommandLine.singleton ⟨["baz"], .stdin, .stdout, .stderr⟩])) := by
  refine ⟨fun l ps a => rfl, fun cur ps a h => ?_, fun l ps a => rfl, fun cur ps a h => ?_,
    rfl, rfl⟩
  · cases cur with
    | pipeline l => exact absurd rfl (h l)
    | _ => rfl
  · cases cur with
    | and l => exact absurd rfl (h l)
    | _ => rfl

/-- Witness for C4: the wrap conjuncts applied at a singleton running node
(which is not a `pipeline` and not an `and`). -/
theorem c4_witness :
    finish_loop [PartParse.sep Token.pipe]
        (CommandLine.singleton ⟨["a"], .stdin, .stdout, .stderr⟩) false false =
      finish_loop [] (CommandLine.pipeline
        [CommandLine.singleton ⟨["a"], .stdin, .stdout, .stderr⟩]) true true ∧
    finish_loop [PartParse.sep Token.and]
        (CommandLine.singleton ⟨["a"], .stdin, .stdout, .stderr⟩) false false =
      finish_loop [] (CommandLine.and
        [CommandLine.singleton ⟨["a"], .stdin, .stdout, .stderr⟩]) true true :=
  ⟨c4_separator_captures_accumulation.2.1 _ [] false (fun l => by simp),
   c4_separator_captures_accumulation.2.2.2.1 _ [] false (fun l => by simp)⟩

/-- C5: a `background` separator wraps the running node directly and does
not require a following command; a command part that does follow is merged
as `sequence([background(node), next])`, not appended inside the
background; in particular `cmd1 & cmd2` parses to
`sequence([background(singleton cmd1), singleton cmd2])`. -/
theorem c5_background_fold :
    (∀ (cur : CommandLine) (ps : List PartParse) (a : Bool),
      finish_loop (PartParse.sep Token.background :: ps) cur false a =
        finish_loop ps (CommandLine.background cur) false true) ∧
    (∀ (cur : CommandLine) (a : Bool),
      finish_loop [PartParse.sep Token.background] cur false a =
        some (ParseResult.parsed (CommandLine.background cur))) ∧
    (∀ (b : CommandLine) (p : PartParse),
      append_to_cl (CommandLine.background b) p =
        (part_to_cl p).map (fun x => CommandLine.sequence [CommandLine.background b, x])) ∧
    parse [Token.string "cmd1", Token.background, Token.string "cmd2"] =
      some (ParseResult.parsed (CommandLine.sequence
        [CommandLine.background (CommandLine.singleton ⟨["cmd1"], .stdin, .stdout, .stderr⟩),
         CommandLine.singleton ⟨["cmd2"], .stdin, .stdout, .stderr⟩])) :=
  ⟨fun cur ps a => rfl, fun cur a => rfl, fun b p => rfl, rfl⟩

/-- C7: a second redirection targeting an already-set channel fails with
"Multiple <channel> redirects.", `redirect_error_to_output` counts as
setting the error channel (its copied value is never `stderr`, because the
output channel is only ever `stdout` or a file), and in particular tokens
for `foo bar 2>&1 2>/dev/null >baz` fail with "Multiple error
redirects.". -/
theorem c7_multiple_redirects :
    (∀ (s : String) (ts : List Token) (args : List String) (i : InputSource) (o e : OutputSink),
      e ≠ .stderr →
      make_command_loop (Token.redirect_error s :: ts) args i o e =
        Sum.inr "Multiple error redirects.") ∧
    (∀ (ts : List Token) (args : List String) (i : InputSource) (o e : OutputSink),
      e ≠ .stderr →
      make_command_loop (Token.redirect_error_to_output :: ts) args i o e =
        Sum.inr "Multiple error redirects.") ∧
    (∀ (s : String) (ts : List Token) (args : List String) (i : InputSource) (o e : OutputSink),
      o ≠ .stdout →
      make_command_loop (Token.redirect_output s :: ts) args i o e =
        Sum.inr "Multiple output redirects.") ∧
    (∀ (s : String) (ts : List Token) (args : List String) (i : InputSource) (o e : OutputSink),
      i ≠ .stdin →
      make_command_loop (Token.redirect_input s :: ts) args i o e =
        Sum.inr "Multiple input redirects.") ∧
    (∀ (s : String) (ts : List Token) (args : List String) (i : InputSource) (o : OutputSink),
      o ≠ .stderr →
      make_command_loop (Token.redirect_error_to_output :: Token.redirect_error s :: ts)
          args i o .stderr =
        Sum.inr "Multiple error redirects.") ∧
    make_command [Token.string "foo", Token.string "bar", Token.redirect_error_to_output,
        Token.redirect_error "/dev/null", Token.redirect_output "baz"] =
      some (Sum.inr "Multiple error redirects.") := by
  refine ⟨fun s ts args i o e h => ?_, fun ts args i o e h => ?_, fun s ts args i o e h => ?_,
    fun s ts args i o e h => ?_, fun s ts args i o h => ?_, rfl⟩
  · simp [make_command_loop, h]
  · simp [make_command_loop, h]
  · simp [make_command_loop, h]
  · simp [make_command_loop, h]
  · simp [make_command_loop, h]

/-- Witness for C7: the general conjuncts applied at concrete channel
states. -/
theorem c7_witness :
    make_command_loop [Token.redirect_error "f"] [] .stdin .stdout (.outfile "g") =
      Sum.inr "Multiple error redirects." ∧
    make_command_loop [Token.redirect_error_to_output] [] .stdin .stdout (.outfile "g") =
      Sum.inr "Multiple error redirects." ∧
    make_command_loop [Token.redirect_output "f"] [] .stdin (.outfile "g") .stderr =
      Sum.inr "Multiple output redirects." ∧
    make_command_loop [Token.redirect_input "f"] [] (.infile "g") .stdout .stderr =
      Sum.inr "Multiple input redirects." ∧
    make_command_loop [Token.redirect_error_to_output, Token.redirect_error "f"]
        [] .stdin .stdout .stderr =
      Sum.inr "Multiple error redirects." :=
  ⟨c7_multiple_redirects.1 "f" [] [] .stdin .stdout _ (by simp),
   c7_multiple_redirects.2.1 [] [] .stdin .stdout _ (by simp),
   c7_multiple_redirects.2.2.1 "f" [] [] .stdin _ .stderr (by simp),
   c7_multiple_redirects.2.2.2.1 "f" [] [] _ .stdout .stderr (by simp),
   c7_multiple_redirects.2.2.2.2.1 "f" [] [] .stdin .stdout (by simp)⟩

/-- C8: `redirect_error_to_output` copies the current value of the output
channel into the error channel — it is a copy at processing time, not a
live link, so a later change of the output channel leaves the error
channel unchanged (the concrete run ends with `output = outfile "baz"`
but `error = stdout`, the value output held at aliasing time). -/
theorem c8_error_to_output_is_copy :
    (∀ (ts : List Token) (args : List String) (i : InputSource) (o : OutputSink),
      make_command_loop (Token.redirect_error_to_output :: ts) args i o .stderr =
        make_command_loop ts args i o o) ∧
    (∀ (s : String) (ts : List Token) (args : List String) (i : InputSource) (e : OutputSink),
      make_command_loop (Token.redirect_output s :: ts) args i .stdout e =
        make_command_loop ts args i (.outfile s) e) ∧
    make_command [Token.string "foo", Token.string "bar", Token.redirect_error_to_output,
        Token.redirect_output "baz"] =
      some (Sum.inl ⟨["foo", "bar"], .stdin, .outfile "baz", .stdout⟩) :=
  ⟨fun ts args i o => rfl, fun s ts args i e => rfl, rfl⟩

/-- C3 counterexample: with the raw lines A = "foo \" and B = "bar",
`tokenize A` ends in a continuation token and neither line has a lexical
error, yet parsing the concatenated token sequences yields the command
`foo bar` while parsing the lines joined by a space yields `foo \ bar` —
the trailing backslash, no longer at the end of the input, is scanned as a
literal backslash word. -/
theorem c3_counterexample :
    tokenize "foo \\" = some [Token.string "foo", Token.continuation] ∧
    tokenize "bar" = some [Token.string "bar"] ∧
    parse ([Token.string "foo", Token.continuation] ++ [Token.string "bar"]) =
      some (ParseResult.parsed
        (CommandLine.singleton ⟨["foo", "bar"], .stdin, .stdout, .stderr⟩)) ∧
    tokenize ("foo \\" ++ " " ++ "bar") =
      some [Token.string "foo", Token.string "\\", Token.string "bar"] ∧
    parse [Token.string "foo", Token.string "\\", Token.string "bar"] =
      some (ParseResult.parsed
        (CommandLine.singleton ⟨["foo", "\\", "bar"], .stdin, .stdout, .stderr⟩)) ∧
    (ParseResult.parsed (CommandLine.singleton ⟨["foo", "bar"], .stdin, .stdout, .stderr⟩) ≠
      ParseResult.parsed (CommandLine.singleton ⟨["foo", "\\", "bar"], .stdin, .stdout, .stderr⟩)) := by
  refine ⟨by decide, by decide, rfl, by decide, rfl, fun h => ?_⟩
  injection h with h1
  injection h1 with h2
  injection h2 with h3
  exact absurd h3 (by decide)

/-- C9: inside a double-quoted run characters are copied verbatim, except
that a backslash-quote pair yields a quote, a backslash-backslash pair
yields a backslash, and any other backslash pair is copied as the two
literal characters; a quote closes the run and the end of input without a
closing quote is the lexical error "Missing \".".  In particular the word
fragment `d"e f\"g"` tokenizes to the single word `de f"g`, and an
unterminated double quote tokenizes to that error. -/
theorem c9_double_quote_rules :
    (∀ r : List Char, doubleq_scan ('"' :: r) = some ([], r)) ∧
    (∀ r : List Char, doubleq_scan ('\\' :: '"' :: r) =
      (doubleq_scan r).map (fun p => ('"' :: p.1, p.2))) ∧
    (∀ r : List Char, doubleq_scan ('\\' :: '\\' :: r) =
      (doubleq_scan r).map (fun p => ('\\' :: p.1, p.2))) ∧
    (∀ (x : Char) (r : List Char), x ≠ '"' → x ≠ '\\' →
      doubleq_scan ('\\' :: x :: r) =
        (doubleq_scan r).map (fun p => ('\\' :: x :: p.1, p.2))) ∧
    (∀ (ch : Char) (r : List Char), ch ≠ '"' → ch ≠ '\\' →
      doubleq_scan (ch :: r) = (doubleq_scan r).map (fun p => (ch :: p.1, p.2))) ∧
    (∀ r : List Char, doubleq_scan r = none →
      consume_doubleq ('"' :: r) = some ⟨Token.error "Missing \".", []⟩) ∧
    tokenize "d\"e f\\\"g\"" = some [Token.string "de f\"g"] ∧
    tokenize "\"abc" = some [Token.error "Missing \"."] := by
  refine ⟨fun r => rfl, fun r => by simp [doubleq_scan], fun r => by simp [doubleq_scan],
    fun x r hx1 hx2 => ?_, fun ch r hc1 hc2 => ?_, fun r hr => ?_, by decide, by decide⟩
  · simp [doubleq_scan, hx1, hx2]
  · rw [doubleq_scan.eq_def]
    split <;> simp_all
  · simp [consume_doubleq, hr]

/-- Witness for C9: the conditional conjuncts applied at a concrete
escaped pair, a concrete ordinary character and a concrete unterminated
run. -/
theorem c9_witness :
    doubleq_scan ['\\', 'q', '"'] =
      (doubleq_scan ['"']).map (fun p => ('\\' :: 'q' :: p.1, p.2)) ∧
    doubleq_scan ['a', '"'] = (doubleq_scan ['"']).map (fun p => ('a' :: p.1, p.2)) ∧
    consume_doubleq ['"', 'a'] = some ⟨Token.error "Missing \".", []⟩ :=
  ⟨c9_double_quote_rules.2.2.2.1 'q' ['"'] (by decide) (by decide),
   c9_double_quote_rules.2.2.2.2.1 'a' ['"'] (by decide) (by decide),
   c9_double_quote_rules.2.2.2.2.2.1 ['a'] (by decide)⟩

theorem append_to_cl_minArity {n : Nat} (hn : n ≤ 2) {cur : CommandLine} {p : PartParse}
    {cur2 : CommandLine} (h : append_to_cl cur p = some cur2)
    (hp : ∀ x, part_to_cl p = some x → MinArity n x)
    (hcur : GoodSep n cur ∨ MinArity n cur) : MinArity n cur2 := by
  rcases hx : part_to_cl p with _ | x
  · cases cur <;> simp [append_to_cl, hx] at h
  have hxm : MinArity n x := hp x hx
  cases cur with
  | singleton c => simp [append_to_cl] at h
  | background b =>
    simp [append_to_cl, hx] at h
    subst h
    refine MinArity.sequence _ (by simp; omega) ?_
    intro c hc
    simp only [List.mem_cons, List.not_mem_nil, or_false] at hc
    rcases hc with hc | hc
    · subst hc
      rcases hcur with hcur | hcur
      · exact absurd hcur (by simp [GoodSep])
      · exact hcur
    · subst hc
      exact hxm
  | pipeline l =>
    simp [append_to_cl, hx] at h
    subst h
    have hlen : n - 1 ≤ l.length ∧ ∀ c ∈ l, MinArity n c := by
      rcases hcur with hcur | hcur
      · exact hcur
      · cases hcur with
        | pipeline _ h1 h2 => exact ⟨by omega, h2⟩
    refine MinArity.pipeline _ (by simp; omega) ?_
    intro c hc
    rcases List.mem_append.mp hc with hc | hc
    · exact hlen.2 c hc
    · simp at hc; subst hc; exact hxm
  | sequence l =>
    simp [append_to_cl, hx] at h
    subst h
    have hlen : n - 1 ≤ l.length ∧ ∀ c ∈ l, MinArity n c := by
      rcases hcur with hcur | hcur
      · exact hcur
      · cases hcur with
        | sequence _ h1 h2 => exact ⟨by omega, h2⟩
    refine MinArity.sequence _ (by simp; omega) ?_
    intro c hc
    rcases List.mem_append.mp hc with hc | hc
    · exact hlen.2 c hc
    · simp at hc; subst hc; exact hxm
  | and l =>
    simp [append_to_cl, hx] at h
    subst h
    have hlen : n - 1 ≤ l.length ∧ ∀ c ∈ l, MinArity n c := by
      rcases hcur with hcur | hcur
      · exact hcur
      · cases hcur with
        | and _ h1 h2 => exact ⟨by omega, h2⟩
    refine MinArity.and _ (by simp; omega) ?_
    intro c hc
    rcases List.mem_append.mp hc with hc | hc
    · exact hlen.2 c hc
    · simp at hc; subst hc; exact hxm
  | or l =>
    simp [append_to_cl, hx] at h
    subst h
    have hlen : n - 1 ≤ l.length ∧ ∀ c ∈ l, MinArity n c := by
      rcases hcur with hcur | hcur
      · exact hcur
      · cases hcur with
        | or _ h1 h2 => exact ⟨by omega, h2⟩
    refine MinArity.or _ (by simp; omega) ?_
    intro c hc
    rcases List.mem_append.mp hc with hc | hc
    · exact hlen.2 c hc
    · simp at hc; subst hc; exact hxm

theorem finish_loop_minArity {n : Nat} (hn : n ≤ 2) :
    ∀ (ps : List PartParse) (cur : CommandLine) (req allowed : Bool) (cl : CommandLine),
      finish_loop ps cur req allowed = some (ParseResult.parsed cl) →
      (∀ c, PartParse.subshell c ∈ ps → MinArity n c) →
      (req = true → GoodSep n cur) → (req = false → MinArity n cur) →
      MinArity n cl := by
  intro ps
  induction ps with
  | nil =>
    intro cur req allowed cl h _ htrue hfalse
    cases req
    · simp [finish_loop] at h
      subst h
      exact hfalse rfl
    · simp [finish_loop] at h
  | cons p ps ih =>
    intro cur req allowed cl h hsub htrue hfalse
    have hsub2 : ∀ c, PartParse.subshell c ∈ ps → MinArity n c :=
      fun c hc => hsub c (List.mem_cons_of_mem _ hc)
    cases p with
    | cmd c =>
      simp only [finish_loop] at h
      cases allowed
      · simp at h
      · simp only [Bool.true_eq_false, if_false] at h
        rcases happ : append_to_cl cur (.cmd c) with _ | cur2 <;> rw [happ] at h
        · simp at h
        · refine ih cur2 false false cl h hsub2 (by simp) (fun _ => ?_)
          refine append_to_cl_minArity hn happ (fun x hx => ?_) ?_
          · simp [part_to_cl] at hx
            subst hx
            exact MinArity.singleton c
          · cases req
            · exact Or.inr (hfalse rfl)
            · exact Or.inl (htrue rfl)
    | subshell c0 =>
      simp only [finish_loop] at h
      cases allowed
      · simp at h
      · simp only [Bool.true_eq_false, if_false] at h
        rcases happ : append_to_cl cur (.subshell c0) with _ | cur2 <;> rw [happ] at h
        · simp at h
        · refine ih cur2 false false cl h hsub2 (by simp) (fun _ => ?_)
          refine append_to_cl_minArity hn happ (fun x hx => ?_) ?_
          · simp [part_to_cl] at hx
            subst hx
            exact hsub c0 (List.mem_cons_self _ _)
          · cases req
            · exact Or.inr (hfalse rfl)
            · exact Or.inl (htrue rfl)
    | sep t =>
      simp only [finish_loop] at h
      cases req
      · simp only [Bool.false_eq_true, if_false] at h
        have hcur : MinArity n cur := hfalse rfl
        cases t with
        | pipe =>
          refine ih _ true true cl h hsub2 (fun _ => ?_) (by simp)
          cases cur with
          | pipeline l =>
            cases hcur with
            | pipeline _ h1 h2 => exact ⟨by omega, h2⟩
          | singleton c => exact ⟨by simp; omega, by simpa using hcur⟩
          | sequence l => exact ⟨by simp; omega, by simpa using hcur⟩
          | background b => exact ⟨by simp; omega, by simpa using hcur⟩
          | and l => exact ⟨by simp; omega, by simpa using hcur⟩
          | or l => exact ⟨by simp; omega, by simpa using hcur⟩
        | and =>
          refine ih _ true true cl h hsub2 (fun _ => ?_) (by simp)
          cases cur with
          | and l =>
            cases hcur with
            | and _ h1 h2 => exact ⟨by omega, h2⟩
          | singleton c => exact ⟨by simp; omega, by simpa using hcur⟩
          | sequence l => exact ⟨by simp; omega, by simpa using hcur⟩
          | background b => exact ⟨by simp; omega, by simpa using hcur⟩
          | pipeline l => exact ⟨by simp; omega, by simpa using hcur⟩
          | or l => exact ⟨by simp; omega, by simpa using hcur⟩
        | or =>
          refine ih _ true true cl h hsub2 (fun _ => ?_) (by simp)
          cases cur with
          | or l =>
            cases hcur with
            | or _ h1 h2 => exact ⟨by omega, h2⟩
          | singleton c => exact ⟨by simp; omega, by simpa using hcur⟩
          | sequence l => exact ⟨by simp; omega, by simpa using hcur⟩
          | background b => exact ⟨by simp; omega, by simpa using hcur⟩
          | pipeline l => exact ⟨by simp; omega, by simpa using hcur⟩
          | and l => exact ⟨by simp; omega, by simpa using hcur⟩
        | sequence =>
          refine ih _ true true cl h hsub2 (fun _ => ?_) (by simp)
          cases cur with
          | sequence l =>
            cases hcur with
            | sequence _ h1 h2 => exact ⟨by omega, h2⟩
          | singleton c => exact ⟨by simp; omega, by simpa using hcur⟩
          | or l => exact ⟨by simp; omega, by simpa using hcur⟩
          | background b => exact ⟨by simp; omega, by simpa using hcur⟩
          | pipeline l => exact ⟨by simp; omega, by simpa using hcur⟩
          | and l => exact ⟨by simp; omega, by simpa using hcur⟩
        | background =>
          exact ih _ false true cl h hsub2 (by simp)
            (fun _ => MinArity.background _ hcur)
        | string s => simp at h
        | redirect_output s => simp at h
        | redirect_error s => simp at h
        | redirect_error_to_output => simp at h
        | redirect_input s => simp at h
        | open_subshell => simp at h
        | close_subshell => simp at h
        | continuation => simp at h
        | error s => simp at h
      · simp at h

theorem finish_parse_minArity {n : Nat} (hn : n ≤ 2) (ps : List PartParse) (cl : CommandLine)
    (h : finish_parse ps = some (ParseResult.parsed cl))
    (hsub : ∀ c, PartParse.subshell c ∈ ps → MinArity n c) : MinArity n cl := by
  cases ps with
  | nil => simp [finish_parse] at h
  | cons p0 rest =>
    have hsub2 : ∀ c, PartParse.subshell c ∈ rest → MinArity n c :=
      fun c hc => hsub c (List.mem_cons_of_mem _ hc)
    cases p0 with
    | sep t => simp [finish_parse] at h
    | cmd c =>
      simp only [finish_parse, part_to_cl] at h
      cases rest with
      | nil =>
        simp at h
        subst h
        exact MinArity.singleton c
      | cons r1 r2 =>
        exact finish_loop_minArity hn (r1 :: r2) _ false false cl h hsub2 (by simp)
          (fun _ => MinArity.singleton c)
    | subshell c0 =>
      have hc0 : MinArity n c0 := hsub c0 (List.mem_cons_self _ _)
      simp only [finish_parse, part_to_cl] at h
      cases rest with
      | nil =>
        simp at h
        subst h
        exact hc0
      | cons r1 r2 =>
        exact finish_loop_minArity hn (r1 :: r2) _ false false cl h hsub2 (by simp)
          (fun _ => hc0)

theorem flush_cmd_subshell {cur : List Token} {parts parts2 : List PartParse}
    (h : flush_cmd cur parts = some (Sum.inl parts2)) :
    ∀ c, PartParse.subshell c ∈ parts2 → PartParse.subshell c ∈ parts := by
  intro c hc
  by_cases hcur : cur = []
  · simp [flush_cmd, hcur] at h
    subst h
    exact hc
  · simp only [flush_cmd, hcur, if_false] at h
    rcases hmk : make_command cur with _ | mc <;> rw [hmk] at h
    · simp at h
    · rcases mc with c2 | e
      · simp at h
        subst h
        rcases List.mem_append.mp hc with hc | hc
        · exact hc
        · simp at hc
      · simp at h

theorem parse_tokens_minArity {n : Nat} (hn : n ≤ 2) :
    ∀ (fuel : Nat) (rest : List Token) (level : Nat) (parts : List PartParse)
      (cur : List Token) (cl : CommandLine) (rem : List Token),
      parse_tokens fuel rest level parts cur = some (ParseResult.parsed cl, rem) →
      (∀ c, PartParse.subshell c ∈ parts → MinArity n c) → MinArity n cl := by
  intro fuel
  induction fuel with
  | zero => intro rest level parts cur cl rem h _; simp [parse_tokens] at h
  | succ fuel ih =>
    intro rest level parts cur cl rem h hsub
    cases rest with
    | nil =>
      simp only [parse_tokens] at h
      by_cases hl : level > 0
      · simp [hl] at h
      · simp only [hl, if_false] at h
        rcases hfl : flush_cmd cur parts with _ | fl <;> rw [hfl] at h
        · simp at h
        · rcases fl with parts2 | e <;> dsimp only at h
          · rcases hfp : finish_parse parts2 with _ | r <;> rw [hfp] at h
            · simp at h
            · simp at h
              obtain ⟨h1, _⟩ := h
              subst h1
              exact finish_parse_minArity hn parts2 cl hfp
                (fun c hc => hsub c (flush_cmd_subshell hfl c hc))
          · simp at h
    | cons t rest =>
      cases t with
      | error e => simp [parse_tokens] at h
      | pipe =>
        simp only [parse_tokens] at h
        rcases hfl : flush_cmd cur parts with _ | fl <;> rw [hfl] at h
        · simp at h
        · rcases fl with parts2 | e <;> dsimp only at h
          · refine ih rest level (parts2 ++ [.sep .pipe]) [] cl rem h (fun c hc => ?_)
            rcases List.mem_append.mp hc with hc | hc
            · exact hsub c (flush_cmd_subshell hfl c hc)
            · simp at hc
          · simp at h
      | and =>
        simp only [parse_tokens] at h
        rcases hfl : flush_cmd cur parts with _ | fl <;> rw [hfl] at h
        · simp at h
        · rcases fl with parts2 | e <;> dsimp only at h
          · refine ih rest level (parts2 ++ [.sep .and]) [] cl rem h (fun c hc => ?_)
            rcases List.mem_append.mp hc with hc | hc
            · exact hsub c (flush_cmd_subshell hfl c hc)
            · simp at hc
          · simp at h
      | or =>
        simp only [parse_tokens] at h
        rcases hfl : flush_cmd cur parts with _ | fl <;> rw [hfl] at h
        · simp at h
        · rcases fl with parts2 | e <;> dsimp only at h
          · refine ih rest level (parts2 ++ [.sep .or]) [] cl rem h (fun c hc => ?_)
            rcases List.mem_append.mp hc with hc | hc
            · exact hsub c (flush_cmd_subshell hfl c hc)
            · simp at hc
          · simp at h
      | background =>
        simp only [parse_tokens] at h
        rcases hfl : flush_cmd cur parts with _ | fl <;> rw [hfl] at h
        · simp at h
        · rcases fl with parts2 | e <;> dsimp only at h
          · refine ih rest level (parts2 ++ [.sep .background]) [] cl rem h (fun c hc => ?_)
            rcases List.mem_append.mp hc with hc | hc
            · exact hsub c (flush_cmd_subshell hfl c hc)
            · simp at hc
          · simp at h
      | sequence =>
        simp only [parse_tokens] at h
        rcases hfl : flush_cmd cur parts with _ | fl <;> rw [hfl] at h
        · simp at h
        · rcases fl with parts2 | e <;> dsimp only at h
          · refine ih rest level (parts2 ++ [.sep .sequence]) [] cl rem h (fun c hc => ?_)
            rcases List.mem_append.mp hc with hc | hc
            · exact hsub c (flush_cmd_subshell hfl c hc)
            · simp at hc
          · simp at h
      | open_subshell =>
        simp only [parse_tokens] at h
        rcases hfl : flush_cmd cur parts with _ | fl <;> rw [hfl] at h
        · simp at h
        · rcases fl with parts2 | e <;> dsimp only at h
          · rcases hin : parse_tokens fuel rest (level + 1) [] [] with _ | pr <;> rw [hin] at h
            · simp at h
            · rcases pr with ⟨r0, rem0⟩
              cases r0 with
              | parsed cl0 =>
                have hcl0 : MinArity n cl0 := ih rest (level + 1) [] [] cl0 rem0 hin (by simp)
                refine ih rem0.tail level (parts2 ++ [.subshell cl0]) [] cl rem h
                  (fun c hc => ?_)
                rcases List.mem_append.mp hc with hc | hc
                · exact hsub c (flush_cmd_subshell hfl c hc)
                · simp at hc
                  subst hc
                  exact hcl0
              | continuation_required => simp at h
              | error e => simp at h
          · simp at h
      | close_subshell =>
        simp only [parse_tokens] at h
        by_cases hl : level = 0
        · simp [hl] at h
        · simp only [hl, if_false] at h
          rcases hfl : flush_cmd cur parts with _ | fl <;> rw [hfl] at h
          · simp at h
          · rcases fl with parts2 | e <;> dsimp only at h
            · rcases hfp : finish_parse parts2 with _ | r <;> rw [hfp] at h
              · simp at h
              · simp at h
                obtain ⟨h1, _⟩ := h
                subst h1
                exact finish_parse_minArity hn parts2 cl hfp
                  (fun c hc => hsub c (flush_cmd_subshell hfl c hc))
            · simp at h
      | continuation =>
        simp only [parse_tokens] at h
        exact ih rest level parts cur cl rem h hsub
      | string s =>
        simp only [parse_tokens] at h
        exact ih rest level parts (cur ++ [.string s]) cl rem h hsub
      | redirect_output s =>
        simp only [parse_tokens] at h
        exact ih rest level parts (cur ++ [.redirect_output s]) cl rem h hsub
      | redirect_error s =>
        simp only [parse_tokens] at h
        exact ih rest level parts (cur ++ [.redirect_error s]) cl rem h hsub
      | redirect_error_to_output =>
        simp only [parse_tokens] at h
        exact ih rest level parts (cur ++ [.redirect_error_to_output]) cl rem h hsub
      | redirect_input s =>
        simp only [parse_tokens] at h
        exact ih rest level parts (cur ++ [.redirect_input s]) cl rem h hsub

theorem parse_minArity {n : Nat} (hn : n ≤ 2) (ts : List Token) (cl : CommandLine)
    (hne : ts ≠ []) (h : parse ts = some (ParseResult.parsed cl)) : MinArity n cl := by
  rw [parse, if_neg hne] at h
  by_cases hlast : ts.getLast? = some Token.continuation
  · simp [hlast] at h
  · rw [if_neg hlast] at h
    rcases hpt : parse_tokens (ts.length + 1) ts 0 [] [] with _ | pr <;> rw [hpt] at h
    · simp at h
    · rcases pr with ⟨r, rem⟩
      simp at h
      subst h
      exact parse_tokens_minArity hn (ts.length + 1) ts 0 [] [] cl rem hpt (by simp)

/-- C2 (amended): for every non-empty token sequence on which the parse
completes with a `parsed` result, every `pipeline`, `sequence`, `and` and
`or` node of the resulting tree holds at least one child.  (The original
claim also covered the empty token sequence, where `parse` returns the
zero-child `sequence []`; see the counterexample.) -/
theorem c2_amended_nonempty_variadic_nonempty (ts : List Token) (cl : CommandLine)
    (hne : ts ≠ []) (h : parse ts = some (ParseResult.parsed cl)) : MinArity 1 cl :=
  parse_minArity (by omega) ts cl hne h

/-- Witness for C2: the amended theorem applied to the tokens of
`a && b`. -/
theorem c2_witness :
    MinArity 1 (CommandLine.and
      [CommandLine.singleton ⟨["a"], .stdin, .stdout, .stderr⟩,
       CommandLine.singleton ⟨["b"], .stdin, .stdout, .stderr⟩]) :=
  c2_amended_nonempty_variadic_nonempty
    [Token.string "a", Token.and, Token.string "b"] _ (by simp) rfl

/-- C10: for every non-empty token sequence on which `parse` returns
`parsed cl`, every `pipeline`, `sequence`, `and` and `or` node occurring
anywhere inside `cl` — including inside `background` nodes and subshell
results — holds at least two children. -/
theorem c10_parsed_variadic_at_least_two (ts : List Token) (cl : CommandLine)
    (hne : ts ≠ []) (h : parse ts = some (ParseResult.parsed cl)) : MinArity 2 cl :=
  parse_minArity (by omega) ts cl hne h

/-- Witness for C10: the theorem applied to the tokens of `a | b`. -/
theorem c10_witness :
    MinArity 2 (CommandLine.pipeline
      [CommandLine.singleton ⟨["a"], .stdin, .stdout, .stderr⟩,
       CommandLine.singleton ⟨["b"], .stdin, .stdout, .stderr⟩]) :=
  c10_parsed_variadic_at_least_two
    [Token.string "a", Token.pipe, Token.string "b"] _ (by simp) rfl

theorem consume_whitespace_length (l : List Char) :
    (consume_whitespace l).length ≤ l.length := by
  induction l with
  | nil => simp [consume_whitespace]
  | cons ch r ih =>
    rw [consume_whitespace]
    split
    · simp only [List.length_cons]; omega
    · simp

theorem consume_whitespace_head (l : List Char) :
    consume_whitespace l = [] ∨
      ∃ ch r, consume_whitespace l = ch :: r ∧ ch.isWhitespace = false := by
  induction l with
  | nil => exact Or.inl rfl
  | cons ch r ih =>
    rw [consume_whitespace]
    split
    · exact ih
    · rename_i hw
      exact Or.inr ⟨ch, r, rfl, by simpa using hw⟩

theorem Token.isErr_eq (t : Token) (h : t.isErr = true) : ∃ e, t = Token.error e := by
  cases t <;> first
    | exact ⟨_, rfl⟩
    | simp [Token.isErr] at h

theorem singleq_scan_length : ∀ (r cnt rem : List Char),
    singleq_scan r = some (cnt, rem) → rem.length < r.length := by
  intro r
  induction r with
  | nil => intro cnt rem h; simp [singleq_scan] at h
  | cons ch r ih =>
    intro cnt rem h
    rw [singleq_scan] at h
    split at h
    · rw [Option.some.injEq, Prod.mk.injEq] at h
      obtain ⟨_, h2⟩ := h
      subst h2
      simp
    · rcases hs : singleq_scan r with _ | ⟨c2, r2⟩ <;> rw [hs] at h
      · simp at h
      · simp at h
        obtain ⟨h1, h2⟩ := h
        have := ih c2 r2 hs
        subst h2
        simp only [List.length_cons]
        omega

theorem doubleq_scan_cons_ne (ch : Char) (r : List Char) (h1 : ch ≠ '"') (h2 : ch ≠ '\\') :
    doubleq_scan (ch :: r) = (fun p => (ch :: p.1, p.2)) <$> doubleq_scan r := by
  rw [doubleq_scan.eq_def]
  split <;> simp_all

theorem doubleq_scan_length : ∀ (r cnt rem : List Char),
    doubleq_scan r = some (cnt, rem) → rem.length < r.length := by
  intro r
  induction r using doubleq_scan.induct with
  | case1 => intro cnt rem h; simp [doubleq_scan] at h
  | case2 r =>
    intro cnt rem h
    simp only [doubleq_scan] at h
    rw [Option.some.injEq, Prod.mk.injEq] at h
    obtain ⟨_, h2⟩ := h
    subst h2
    simp
  | case3 x r ih =>
    intro cnt rem h
    simp only [doubleq_scan] at h
    rcases hs : doubleq_scan r with _ | ⟨c2, r2⟩ <;> rw [hs] at h
    · simp at h
    · simp at h
      obtain ⟨h1, h2⟩ := h
      have := ih c2 r2 hs
      subst h2
      simp only [List.length_cons]
      omega
  | case4 ch r h1 h2 ih =>
    intro cnt rem h
    by_cases hbs : ch = '\\'
    · subst hbs
      have hr : r = [] := by
        cases r with
        | nil => rfl
        | cons a l => exact absurd rfl (h2 a l rfl)
      subst hr
      simp [doubleq_scan] at h
    · rw [doubleq_scan_cons_ne ch r (fun hc => h1 hc) hbs] at h
      rcases hs : doubleq_scan r with _ | ⟨c2, r2⟩ <;> rw [hs] at h
      · simp at h
      · simp at h
        obtain ⟨h1b, h2b⟩ := h
        have := ih c2 r2 hs
        subst h2b
        simp only [List.length_cons]
        omega

theorem consume_doubleq_spec (r : List Char) :
    consume_doubleq ('"' :: r) = some ⟨Token.error "Missing \".", []⟩ ∨
      ∃ s rem, consume_doubleq ('"' :: r) = some ⟨Token.string s, rem⟩ ∧
        rem.length + 1 ≤ r.length := by
  rcases hs : doubleq_scan r with _ | ⟨cnt, rem⟩
  · exact Or.inl (by simp [consume_doubleq, hs])
  · refine Or.inr ⟨String.mk cnt, rem, by simp [consume_doubleq, hs], ?_⟩
    have := doubleq_scan_length r cnt rem hs
    omega

theorem consume_singleq_spec (r : List Char) :
    consume_singleq (squote :: r) = some ⟨Token.error "Missing \x27.", []⟩ ∨
      ∃ s rem, consume_singleq (squote :: r) = some ⟨Token.string s, rem⟩ ∧
        rem.length + 1 ≤ r.length := by
  rcases hs : singleq_scan r with _ | ⟨cnt, rem⟩
  · exact Or.inl (by simp [consume_singleq, hs])
  · refine Or.inr ⟨String.mk cnt, rem, by simp [consume_singleq, hs], ?_⟩
    have := singleq_scan_length r cnt rem hs
    omega

theorem is_token_separator_some (ch : Char) (r : List Char) :
    ∃ b, is_token_separator (ch :: r) = some b := by
  simp only [is_token_separator]
  split
  · exact ⟨_, rfl⟩
  · split
    · exact ⟨_, rfl⟩
    · split
      · exact ⟨_, rfl⟩
      · exact ⟨_, rfl⟩

theorem consume_string_loop_spec : ∀ (fuel : Nat) (rest : List Char) (s : String),
    rest.length < fuel →
    ∃ c, consume_string_loop fuel rest s = some c ∧ c.rest.length ≤ rest.length ∧
      (c.t.isErr = true → c.rest = []) ∧
      (c.t.isErr = true ∨ ∃ s2, c.t = Token.string s2) := by
  intro fuel
  induction fuel with
  | zero => intro rest s hf; omega
  | succ fuel ih =>
    intro rest s hf
    cases rest with
    | nil =>
      exact ⟨⟨.string s, []⟩, rfl, by simp, by simp [Token.isErr], Or.inr ⟨s, rfl⟩⟩
    | cons ch r =>
      obtain ⟨b, hsep⟩ := is_token_separator_some ch r
      cases b
      · by_cases hq : ch = '"'
        · subst hq
          rcases consume_doubleq_spec r with herr | ⟨s2, rem, heq, hlen⟩
          · refine ⟨⟨.error "Missing \".", []⟩, ?_, by simp, by simp, Or.inl rfl⟩
            rw [consume_string_loop, hsep]
            simp [herr]
          · simp only [List.length_cons] at hf
            obtain ⟨c, hc, hl2, he2, hs2⟩ := ih rem (s ++ s2) (by omega)
            refine ⟨c, ?_, by simp only [List.length_cons]; omega, he2, hs2⟩
            rw [consume_string_loop, hsep]
            simp [heq, hc]
        · by_cases hsq : ch = squote
          · subst hsq
            rcases consume_singleq_spec r with herr | ⟨s2, rem, heq, hlen⟩
            · refine ⟨⟨.error "Missing \x27.", []⟩, ?_, by simp, by simp, Or.inl rfl⟩
              rw [consume_string_loop, hsep]
              simp [herr, hq]
            · simp only [List.length_cons] at hf
              obtain ⟨c, hc, hl2, he2, hs2⟩ := ih rem (s ++ s2) (by omega)
              refine ⟨c, ?_, by simp only [List.length_cons]; omega, he2, hs2⟩
              rw [consume_string_loop, hsep]
              simp [heq, hc, hq]
          · simp only [List.length_cons] at hf
            obtain ⟨c, hc, hl2, he2, hs2⟩ := ih r (s.push ch) (by omega)
            refine ⟨c, ?_, by simp only [List.length_cons]; omega, he2, hs2⟩
            rw [consume_string_loop, hsep]
            simp [hq, hsq, hc]
      · exact ⟨⟨.string s, ch :: r⟩, by rw [consume_string_loop, hsep], by simp,
          by simp [Token.isErr], Or.inr ⟨s, rfl⟩⟩

theorem consume_string_spec (rest : List Char) :
    ∃ c, consume_string rest = some c ∧ c.rest.length ≤ rest.length ∧
      (c.t.isErr = true → c.rest = []) ∧
      (c.t.isErr = true ∨ ∃ s2, c.t = Token.string s2) :=
  consume_string_loop_spec (rest.length + 1) rest "" (by omega)

theorem consume_string_progress {ch : Char} {r : List Char}
    (hsep : is_token_separator (ch :: r) = some false) :
    ∃ c, consume_string (ch :: r) = some c ∧ c.rest.length < (ch :: r).length ∧
      (c.t.isErr = true → c.rest = []) ∧
      (c.t.isErr = true ∨ ∃ s2, c.t = Token.string s2) := by
  rw [consume_string]
  by_cases hq : ch = '"'
  · subst hq
    rcases consume_doubleq_spec r with herr | ⟨s2, rem, heq, hlen⟩
    · refine ⟨⟨.error "Missing \".", []⟩, ?_, by simp, by simp, Or.inl rfl⟩
      rw [consume_string_loop, hsep]
      simp [herr]
    · obtain ⟨c, hc, hl2, he2, hs2⟩ :=
        consume_string_loop_spec (('"' :: r).length) rem ("" ++ s2) (by simp; omega)
      refine ⟨c, ?_, by simp only [List.length_cons]; omega, he2, hs2⟩
      rw [consume_string_loop, hsep]
      simp only [List.length_cons]
      simp [heq]
      simpa using hc
  · by_cases hsq : ch = squote
    · subst hsq
      rcases consume_singleq_spec r with herr | ⟨s2, rem, heq, hlen⟩
      · refine ⟨⟨.error "Missing \x27.", []⟩, ?_, by simp, by simp, Or.inl rfl⟩
        rw [consume_string_loop, hsep]
        simp [herr, hq]
      · obtain ⟨c, hc, hl2, he2, hs2⟩ :=
          consume_string_loop_spec ((squote :: r).length) rem ("" ++ s2) (by simp; omega)
        refine ⟨c, ?_, by simp only [List.length_cons]; omega, he2, hs2⟩
        rw [consume_string_loop, hsep]
        simp only [List.length_cons]
        simp [heq, hq]
        simpa using hc
    · obtain ⟨c, hc, hl2, he2, hs2⟩ :=
        consume_string_loop_spec ((ch :: r).length) r ("".push ch) (by simp)
      refine ⟨c, ?_, by simp only [List.length_cons]; omega, he2, hs2⟩
      rw [consume_string_loop, hsep]
      simp only [List.length_cons]
      simp [hq, hsq]
      simpa using hc

theorem consume_pipechar_spec (r : List Char) :
    ∃ c, consume_pipechar ('|' :: r) = some c ∧ c.rest.length < ('|' :: r).length ∧
      c.t.isErr = false := by
  rcases r with _ | ⟨c1, r1⟩
  · exact ⟨⟨.pipe, []⟩, rfl, by simp, rfl⟩
  · by_cases hc : c1 = '|'
    · subst hc
      exact ⟨⟨.or, r1⟩, rfl, by simp; omega, rfl⟩
    · refine ⟨⟨.pipe, c1 :: r1⟩, ?_, by simp, rfl⟩
      rw [consume_pipechar.eq_def]
      split <;> simp_all [consume_pipe]

theorem consume_ampersand_spec (r : List Char) :
    ∃ c, consume_ampersand ('&' :: r) = some c ∧ c.rest.length < ('&' :: r).length ∧
      c.t.isErr = false := by
  rcases r with _ | ⟨c1, r1⟩
  · exact ⟨⟨.background, []⟩, rfl, by simp, rfl⟩
  · by_cases hc : c1 = '&'
    · subst hc
      exact ⟨⟨.and, r1⟩, rfl, by simp; omega, rfl⟩
    · refine ⟨⟨.background, c1 :: r1⟩, ?_, by simp, rfl⟩
      rw [consume_ampersand.eq_def]
      split <;> simp_all [consume_background]

theorem consume_redirect_output_spec (r : List Char) :
    ∃ c, consume_redirect_output ('>' :: r) = some c ∧ c.rest.length ≤ r.length ∧
      (c.t.isErr = true → c.rest = []) := by
  obtain ⟨⟨t0, rest0⟩, hc0, hlen, herr, hshape⟩ := consume_string_spec (consume_whitespace r)
  have hwl := consume_whitespace_length r
  simp only at hlen herr hshape
  rcases hshape with herr2 | ⟨s2, hs2⟩
  · obtain ⟨e, he⟩ := Token.isErr_eq t0 herr2
    subst he
    exact ⟨⟨.error "Could not parse file name for output redirection.", []⟩,
      by simp [consume_redirect_output, hc0], by simp, by simp⟩
  · subst hs2
    by_cases hlen2 : s2.length > 0
    · refine ⟨⟨.redirect_output s2, rest0⟩, ?_, ?_, by simp [Token.isErr]⟩
      · simp [consume_redirect_output, hc0, hlen2]
      · simp only
        omega
    · refine ⟨⟨.error "No output file specified.", []⟩, ?_, by simp, by simp⟩
      simp [consume_redirect_output, hc0, hlen2]

theorem consume_redirect_input_spec (r : List Char) :
    ∃ c, consume_redirect_input ('<' :: r) = some c ∧ c.rest.length ≤ r.length ∧
      (c.t.isErr = true → c.rest = []) := by
  obtain ⟨⟨t0, rest0⟩, hc0, hlen, herr, hshape⟩ := consume_string_spec (consume_whitespace r)
  have hwl := consume_whitespace_length r
  simp only at hlen herr hshape
  rcases hshape with herr2 | ⟨s2, hs2⟩
  · obtain ⟨e, he⟩ := Token.isErr_eq t0 herr2
    subst he
    exact ⟨⟨.error "Could not parse file name for input redirection.", []⟩,
      by simp [consume_redirect_input, hc0], by simp, by simp⟩
  · subst hs2
    by_cases hlen2 : s2.length > 0
    · refine ⟨⟨.redirect_input s2, rest0⟩, ?_, ?_, by simp [Token.isErr]⟩
      · simp [consume_redirect_input, hc0, hlen2]
      · simp only
        omega
    · refine ⟨⟨.error "No input file specified.", []⟩, ?_, by simp, by simp⟩
      simp [consume_redirect_input, hc0, hlen2]

theorem consume_redirect_error_spec (r : List Char) :
    ∃ c, consume_redirect_error ('2' :: '>' :: r) = some c ∧ c.rest.length ≤ r.length ∧
      (c.t.isErr = true → c.rest = []) := by
  obtain ⟨⟨t0, rest0⟩, hc0, hlen, herr, hshape⟩ := consume_string_spec (consume_whitespace r)
  have hwl := consume_whitespace_length r
  simp only at hlen herr hshape
  rcases hshape with herr2 | ⟨s2, hs2⟩
  · obtain ⟨e, he⟩ := Token.isErr_eq t0 herr2
    subst he
    exact ⟨⟨.error "Could not parse file name for error redirection.", []⟩,
      by simp [consume_redirect_error, hc0], by simp, by simp⟩
  · subst hs2
    by_cases hlen2 : s2.length > 0
    · refine ⟨⟨.redirect_error s2, rest0⟩, ?_, ?_, by simp [Token.isErr]⟩
      · simp [consume_redirect_error, hc0, hlen2]
      · simp only
        omega
    · refine ⟨⟨.error "No error file specified.", []⟩, ?_, by simp, by simp⟩
      simp [consume_redirect_error, hc0, hlen2]

theorem is_token_separator_two (r : List Char) :
    is_token_separator ('2' :: r) = some false := rfl

theorem consume_two_spec (r : List Char) :
    ∃ c, consume_two ('2' :: r) = some c ∧ c.rest.length < ('2' :: r).length ∧
      (c.t.isErr = true → c.rest = []) := by
  rcases r with _ | ⟨c1, r1⟩
  · obtain ⟨c, hc, hl, he, _⟩ := consume_string_progress (is_token_separator_two [])
    exact ⟨c, hc, hl, he⟩
  by_cases h1 : c1 = '>'
  · subst h1
    rcases r1 with _ | ⟨c2, r2⟩
    · obtain ⟨c, hc, hl, he⟩ := consume_redirect_error_spec []
      refine ⟨c, by simpa [consume_two] using hc, ?_, he⟩
      simp only [List.length_nil, List.length_cons] at hl ⊢
      omega
    by_cases h2 : c2 = '&'
    · subst h2
      rcases r2 with _ | ⟨c3, r3⟩
      · obtain ⟨c, hc, hl, he⟩ := consume_redirect_error_spec ['&']
        refine ⟨c, by simpa [consume_two] using hc, ?_, he⟩
        simp only [List.length_cons] at hl ⊢
        omega
      by_cases h3 : c3 = '1'
      · subst h3
        rcases r3 with _ | ⟨c4, r4⟩
        · exact ⟨⟨.redirect_error_to_output, []⟩, by simp [consume_two], by simp,
            by simp [Token.isErr]⟩
        obtain ⟨b, hb⟩ := is_token_separator_some c4 r4
        cases b
        · obtain ⟨c, hc, hl, he⟩ := consume_redirect_error_spec ('&' :: '1' :: c4 :: r4)
          refine ⟨c, ?_, ?_, he⟩
          · simp only [consume_two, hb]
            simpa using hc
          · simp only [List.length_cons] at hl ⊢
            omega
        · refine ⟨⟨.redirect_error_to_output, c4 :: r4⟩, ?_, by simp,
            by simp [Token.isErr]⟩
          simp [consume_two, hb]
      · obtain ⟨c, hc, hl, he⟩ := consume_redirect_error_spec ('&' :: c3 :: r3)
        refine ⟨c, ?_, ?_, he⟩
        · simp only [consume_two.eq_def]
          simp [h3]
          simpa using hc
        · simp only [List.length_cons] at hl ⊢
          omega
    · obtain ⟨c, hc, hl, he⟩ := consume_redirect_error_spec (c2 :: r2)
      refine ⟨c, ?_, ?_, he⟩
      · simp only [consume_two.eq_def]
        simp [h2]
        simpa using hc
      · simp only [List.length_cons] at hl ⊢
        omega
  · have hsep : is_token_separator ('2' :: c1 :: r1) = some false := rfl
    obtain ⟨c, hc, hl, he, _⟩ := consume_string_progress hsep
    refine ⟨c, ?_, hl, he⟩
    simp only [consume_two.eq_def]
    simp [h1]
    simpa using hc

theorem consume_token_dispatch_spec (ch : Char) (r : List Char) (hw : ch.isWhitespace = false) :
    ∃ c, consume_token_dispatch (ch :: r) = some c ∧ c.rest.length < (ch :: r).length ∧
      (c.t.isErr = true → c.rest = []) := by
  simp only [consume_token_dispatch]
  by_cases h1 : ch = '|'
  · subst h1
    obtain ⟨c, hc, hl, he⟩ := consume_pipechar_spec r
    refine ⟨c, ?_, hl, by simp [he]⟩
    simpa using hc
  rw [if_neg h1]
  by_cases h2 : ch = '>'
  · subst h2
    obtain ⟨c, hc, hl, he⟩ := consume_redirect_output_spec r
    refine ⟨c, ?_, by simp only [List.length_cons]; omega, he⟩
    simpa using hc
  rw [if_neg h2]
  by_cases h3 : ch = '<'
  · subst h3
    obtain ⟨c, hc, hl, he⟩ := consume_redirect_input_spec r
    refine ⟨c, ?_, by simp only [List.length_cons]; omega, he⟩
    simpa using hc
  rw [if_neg h3]
  by_cases h4 : ch = '&'
  · subst h4
    obtain ⟨c, hc, hl, he⟩ := consume_ampersand_spec r
    refine ⟨c, ?_, hl, by simp [he]⟩
    simpa using hc
  rw [if_neg h4]
  by_cases h5 : ch = '2'
  · subst h5
    obtain ⟨c, hc, hl, he⟩ := consume_two_spec r
    refine ⟨c, ?_, hl, he⟩
    simpa using hc
  rw [if_neg h5]
  by_cases h6 : ch = ';'
  · subst h6
    exact ⟨⟨.sequence, r⟩, by simp [consume_sequence], by simp, by simp [Token.isErr]⟩
  rw [if_neg h6]
  by_cases h7 : ch = '('
  · subst h7
    exact ⟨⟨.open_subshell, r⟩, by simp [consume_open_subshell], by simp, by simp [Token.isErr]⟩
  rw [if_neg h7]
  by_cases h8 : ch = ')'
  · subst h8
    exact ⟨⟨.close_subshell, r⟩, by simp [consume_close_subshell], by simp, by simp [Token.isErr]⟩
  rw [if_neg h8]
  by_cases h9 : ch = '\\'
  · subst h9
    rcases r with _ | ⟨c1, r1⟩
    · exact ⟨⟨.continuation, []⟩, by simp, by simp, by simp [Token.isErr]⟩
    · have hsep : is_token_separator ('\\' :: c1 :: r1) = some false := rfl
      obtain ⟨c, hc, hl, he, _⟩ := consume_string_progress hsep
      refine ⟨c, ?_, hl, he⟩
      simpa using hc
  rw [if_neg h9]
  have hsep : is_token_separator (ch :: r) = some false := by
    simp [is_token_separator, hw, h1, h2, h3, h4, h6, h7, h8, h9]
  obtain ⟨c, hc, hl, he, _⟩ := consume_string_progress hsep
  exact ⟨c, hc, hl, he⟩

theorem consume_token_spec (ch : Char) (r : List Char) (hw : ch.isWhitespace = false) :
    ∃ c, consume_token (ch :: r) = some c ∧ c.rest.length < (ch :: r).length ∧
      (c.rest = [] ∨ ∃ ch2 r2, c.rest = ch2 :: r2 ∧ ch2.isWhitespace = false) ∧
      (c.t.isErr = true → c.rest = []) := by
  obtain ⟨c0, hc0, hlen, herr⟩ := consume_token_dispatch_spec ch r hw
  refine ⟨⟨c0.t, consume_whitespace c0.rest⟩, by simp [consume_token, hc0], ?_, ?_, ?_⟩
  · have := consume_whitespace_length c0.rest
    simp only [List.length_cons] at hlen ⊢
    omega
  · simpa using consume_whitespace_head c0.rest
  · intro he
    have h0 : c0.rest = [] := herr (by simpa using he)
    simp [h0, consume_whitespace]

theorem tokenize_loop_spec : ∀ (fuel : Nat) (rest : List Char) (acc : List Token),
    rest.length < fuel →
    (rest = [] ∨ ∃ ch r, rest = ch :: r ∧ ch.isWhitespace = false) →
    ∃ ts, tokenize_loop fuel rest acc = some (acc ++ ts) ∧
      ∀ t ∈ ts.dropLast, t.isErr = false := by
  intro fuel
  induction fuel with
  | zero => intro rest acc hf _; omega
  | succ fuel ih =>
    intro rest acc hf hhead
    rcases hhead with hnil | ⟨ch, r, hcons, hw⟩
    · subst hnil
      exact ⟨[], by simp [tokenize_loop], by simp⟩
    · subst hcons
      obtain ⟨c, hc, hl, hh, he⟩ := consume_token_spec ch r hw
      have hf2 : c.rest.length < fuel := by
        simp only [List.length_cons] at hf hl
        omega
      obtain ⟨ts2, hts2, herr2⟩ := ih c.rest (acc ++ [c.t]) hf2 hh
      refine ⟨c.t :: ts2, ?_, ?_⟩
      · rw [tokenize_loop, if_neg (by simp), hc]
        dsimp only
        rw [hts2]
        simp
      · intro t ht
        by_cases herrc : c.t.isErr = true
        · have h0 : c.rest = [] := he herrc
          have hts0 : ts2 = [] := by
            rw [h0] at hts2
            cases fuel with
            | zero => omega
            | succ f2 =>
              rw [tokenize_loop] at hts2
              simp at hts2
              exact hts2
          subst hts0
          simp at ht
        · rcases ts2 with _ | ⟨t2, ts3⟩
          · simp at ht
          · rw [List.dropLast_cons₂] at ht
            rcases List.mem_cons.mp ht with h | h
            · subst h
              exact Bool.not_eq_true _ ▸ (by simpa using herrc)
            · exact herr2 t h

/-- C6: for every input string the tokenizer returns a token sequence —
none of its `fail`/`assert` branches is reachable, all indexing stays in
bounds and its loops terminate (the embedding would return `none` in any
of those cases) — and every token before the last one is not a `LexError`,
so the sequence contains at most one error token and it can only be the
final one. -/
theorem c6_tokenize_total_error_last (s : String) :
    ∃ ts : List Token, tokenize s = some ts ∧ ∀ t ∈ ts.dropLast, t.isErr = false := by
  obtain ⟨ts, hts, herr⟩ := tokenize_loop_spec (consume_whitespace s.data).length.succ
    (consume_whitespace s.data) [] (by omega) (consume_whitespace_head s.data)
  exact ⟨ts, by simpa [tokenize] using hts, herr⟩

theorem parse_tokens_suffix : ∀ (fuel : Nat) (rest : List Token) (level : Nat)
    (parts : List PartParse) (cur : List Token) (r : ParseResult) (rem : List Token),
    parse_tokens fuel rest level parts cur = some (r, rem) → rem <:+ rest := by
  intro fuel
  induction fuel with
  | zero => intro rest level parts cur r rem h; simp [parse_tokens] at h
  | succ fuel ih =>
    intro rest level parts cur r rem h
    cases rest with
    | nil =>
      simp only [parse_tokens] at h
      by_cases hl : level > 0
      · simp [hl] at h
        exact h.2 ▸ List.nil_suffix
      · simp only [hl, if_false] at h
        rcases hfl : flush_cmd cur parts with _ | fl <;> rw [hfl] at h
        · simp at h
        · rcases fl with parts2 | e <;> dsimp only at h
          · rcases hfp : finish_parse parts2 with _ | r2 <;> rw [hfp] at h
            · simp at h
            · simp at h
              exact h.2 ▸ List.nil_suffix
          · simp at h
            exact h.2 ▸ List.nil_suffix
    | cons t rest =>
      have hstep : rest <:+ t :: rest := List.suffix_cons t rest
      cases t with
      | error e =>
        simp only [parse_tokens] at h
        simp at h
        exact h.2 ▸ List.suffix_refl _
      | pipe =>
        simp only [parse_tokens] at h
        rcases hfl : flush_cmd cur parts with _ | fl <;> rw [hfl] at h
        · simp at h
        · rcases fl with parts2 | e <;> dsimp only at h
          · exact (ih _ _ _ _ _ _ h).trans hstep
          · simp at h
            exact h.2 ▸ List.suffix_refl _
      | and =>
        simp only [parse_tokens] at h
        rcases hfl : flush_cmd cur parts with _ | fl <;> rw [hfl] at h
        · simp at h
        · rcases fl with parts2 | e <;> dsimp only at h
          · exact (ih _ _ _ _ _ _ h).trans hstep
          · simp at h
            exact h.2 ▸ List.suffix_refl _
      | or =>
        simp only [parse_tokens] at h
        rcases hfl : flush_cmd cur parts with _ | fl <;> rw [hfl] at h
        · simp at h
        · rcases fl with parts2 | e <;> dsimp only at h
          · exact (ih _ _ _ _ _ _ h).trans hstep
          · simp at h
            exact h.2 ▸ List.suffix_refl _
      | background =>
        simp only [parse_tokens] at h
        rcases hfl : flush_cmd cur parts with _ | fl <;> rw [hfl] at h
        · simp at h
        · rcases fl with parts2 | e <;> dsimp only at h
          · exact (ih _ _ _ _ _ _ h).trans hstep
          · simp at h
            exact h.2 ▸ List.suffix_refl _
      | sequence =>
        simp only [parse_tokens] at h
        rcases hfl : flush_cmd cur parts with _ | fl <;> rw [hfl] at h
        · simp at h
        · rcases fl with parts2 | e <;> dsimp only at h
          · exact (ih _ _ _ _ _ _ h).trans hstep
          · simp at h
            exact h.2 ▸ List.suffix_refl _
      | open_subshell =>
        simp only [parse_tokens] at h
        rcases hfl : flush_cmd cur parts with _ | fl <;> rw [hfl] at h
        · simp at h
        · rcases fl with parts2 | e <;> dsimp only at h
          · rcases hin : parse_tokens fuel rest (level + 1) [] [] with _ | ⟨r0, rem0⟩ <;>
              rw [hin] at h
            · simp at h
            · have hrem0 : rem0 <:+ rest := ih _ _ _ _ _ _ hin
              cases r0 with
              | parsed cl =>
                have htail : rem0.tail <:+ rem0 := List.tail_suffix rem0
                exact (ih _ _ _ _ _ _ h).trans ((htail.trans hrem0).trans hstep)
              | continuation_required => simp at h
              | error e2 =>
                simp at h
                exact h.2 ▸ (hrem0.trans hstep)
          · simp at h
            exact h.2 ▸ List.suffix_refl _
      | close_subshell =>
        simp only [parse_tokens] at h
        by_cases hl : level = 0
        · simp [hl] at h
          exact h.2 ▸ List.suffix_refl _
        · simp only [hl, if_false] at h
          rcases hfl : flush_cmd cur parts with _ | fl <;> rw [hfl] at h
          · simp at h
          · rcases fl with parts2 | e <;> dsimp only at h
            · rcases hfp : finish_parse parts2 with _ | r2 <;> rw [hfp] at h
              · simp at h
              · simp at h
                exact h.2 ▸ List.suffix_refl _
            · simp at h
              exact h.2 ▸ List.suffix_refl _
      | continuation =>
        simp only [parse_tokens] at h
        exact (ih _ _ _ _ _ _ h).trans hstep
      | string s =>
        simp only [parse_tokens] at h
        exact (ih _ _ _ _ _ _ h).trans hstep
      | redirect_output s =>
        simp only [parse_tokens] at h
        exact (ih _ _ _ _ _ _ h).trans hstep
      | redirect_error s =>
        simp only [parse_tokens] at h
        exact (ih _ _ _ _ _ _ h).trans hstep
      | redirect_error_to_output =>
        simp only [parse_tokens] at h
        exact (ih _ _ _ _ _ _ h).trans hstep
      | redirect_input s =>
        simp only [parse_tokens] at h
        exact (ih _ _ _ _ _ _ h).trans hstep

theorem parse_tokens_fuel_succ : ∀ (fuel : Nat) (rest : List Token) (level : Nat)
    (parts : List PartParse) (cur : List Token), rest.length < fuel →
    parse_tokens (fuel + 1) rest level parts cur = parse_tokens fuel rest level parts cur := by
  intro fuel
  induction fuel with
  | zero => intro rest level parts cur hf; omega
  | succ fuel ih =>
    intro rest level parts cur hf
    cases rest with
    | nil => rfl
    | cons t rest =>
      have hf2 : rest.length < fuel := by
        simp only [List.length_cons] at hf
        omega
      cases t with
      | error e => rfl
      | pipe =>
        simp only [parse_tokens]
        rcases hfl : flush_cmd cur parts with _ | fl
        · rfl
        · rcases fl with parts2 | e
          · exact ih rest level (parts2 ++ [.sep .pipe]) [] hf2
          · rfl
      | and =>
        simp only [parse_tokens]
        rcases hfl : flush_cmd cur parts with _ | fl
        · rfl
        · rcases fl with parts2 | e
          · exact ih rest level (parts2 ++ [.sep .and]) [] hf2
          · rfl
      | or =>
        simp only [parse_tokens]
        rcases hfl : flush_cmd cur parts with _ | fl
        · rfl
        · rcases fl with parts2 | e
          · exact ih rest level (parts2 ++ [.sep .or]) [] hf2
          · rfl
      | background =>
        simp only [parse_tokens]
        rcases hfl : flush_cmd cur parts with _ | fl
        · rfl
        · rcases fl with parts2 | e
          · exact ih rest level (parts2 ++ [.sep .background]) [] hf2
          · rfl
      | sequence =>
        simp only [parse_tokens]
        rcases hfl : flush_cmd cur parts with _ | fl
        · rfl
        · rcases fl with parts2 | e
          · exact ih rest level (parts2 ++ [.sep .sequence]) [] hf2
          · rfl
      | open_subshell =>
        simp only [parse_tokens]
        rcases hfl : flush_cmd cur parts with _ | fl
        · rfl
        · rcases fl with parts2 | e
          · rw [ih rest (level + 1) [] [] hf2]
            rcases hin : parse_tokens fuel rest (level + 1) [] [] with _ | ⟨r0, rem0⟩
            · rfl
            · cases r0 with
              | parsed cl =>
                dsimp only
                have hrem0 : rem0 <:+ rest := parse_tokens_suffix fuel rest _ _ _ _ _ hin
                have hlen : rem0.tail.length < fuel := by
                  have h1 : rem0.length ≤ rest.length := hrem0.length_le
                  have h2 : rem0.tail.length = rem0.length - 1 := by
                    simp [List.length_tail]
                  omega
                exact ih rem0.tail level (parts2 ++ [.subshell cl]) [] hlen
              | continuation_required => rfl
              | error e2 => rfl
          · rfl
      | close_subshell => rfl
      | continuation =>
        simp only [parse_tokens]
        exact ih rest level parts cur hf2
      | string s =>
        simp only [parse_tokens]
        exact ih rest level parts (cur ++ [.string s]) hf2
      | redirect_output s =>
        simp only [parse_tokens]
        exact ih rest level parts (cur ++ [.redirect_output s]) hf2
      | redirect_error s =>
        simp only [parse_tokens]
        exact ih rest level parts (cur ++ [.redirect_error s]) hf2
      | redirect_error_to_output =>
        simp only [parse_tokens]
        exact ih rest level parts (cur ++ [.redirect_error_to_output]) hf2
      | redirect_input s =>
        simp only [parse_tokens]
        exact ih rest level parts (cur ++ [.redirect_input s]) hf2

theorem parse_tokens_fuel_ge : ∀ (fuel fuel2 : Nat) (rest : List Token) (level : Nat)
    (parts : List PartParse) (cur : List Token),
    rest.length < fuel → fuel ≤ fuel2 →
    parse_tokens fuel2 rest level parts cur = parse_tokens fuel rest level parts cur := by
  intro fuel fuel2
  induction fuel2 with
  | zero => intro rest level parts cur hf hle; omega
  | succ fuel2 ih =>
    intro rest level parts cur hf hle
    rcases Nat.lt_or_ge fuel (fuel2 + 1) with hlt | hge
    · have hle2 : fuel ≤ fuel2 := by omega
      rw [parse_tokens_fuel_succ fuel2 rest level parts cur (by omega)]
      exact ih rest level parts cur hf hle2
    · have : fuel = fuel2 + 1 := by omega
      rw [this]

theorem reinsert_cont_small {ys rem : List Token} (h : rem.length ≤ ys.length) :
    reinsert_cont ys rem = rem := by
  rw [reinsert_cont, if_pos h]

theorem reinsert_cont_append (ys : List Token) (w : List Token) (hw : w ≠ []) :
    reinsert_cont ys (w ++ ys) = w ++ Token.continuation :: ys := by
  have hlen : (w ++ ys).length - ys.length = w.length := by
    simp only [List.length_append]
    omega
  have hgt : ¬ (w ++ ys).length ≤ ys.length := by
    simp only [List.length_append]
    have : 0 < w.length := List.length_pos.mpr hw
    omega
  rw [reinsert_cont, if_neg hgt, hlen, List.take_left]

theorem suffix_longer_split {l3 l1 l2 : List Token} (h : l3 <:+ l1 ++ l2)
    (hl : l2.length < l3.length) : ∃ w, w ≠ [] ∧ l3 = w ++ l2 ∧ w.length ≤ l1.length := by
  obtain ⟨p, hp⟩ := h
  have hlen : p.length + l3.length = l1.length + l2.length := by
    have := congrArg List.length hp
    simpa using this
  have hple : p.length ≤ l1.length := by omega
  refine ⟨l1.drop p.length, ?_, ?_, by simp⟩
  · intro hcontra
    have := congrArg List.length hcontra
    simp at this
    omega
  · have hdrop : (l1 ++ l2).drop p.length = l1.drop p.length ++ l2 := by
      rw [List.drop_append_of_le_length hple]
    have : (p ++ l3).drop p.length = l3 := by simp
    rw [hp] at this
    rw [hdrop] at this
    exact this.symm

theorem map_reinsert_big {ys u2 : List Token} (t : Token) (r : ParseResult) :
    Option.map (fun pr => (pr.1, reinsert_cont ys pr.2))
        (some (r, t :: (u2 ++ ys)) : Option (ParseResult × List Token)) =
      some (r, t :: (u2 ++ Token.continuation :: ys)) := by
  have h := reinsert_cont_append ys (t :: u2) (by simp)
  simp only [List.cons_append] at h
  simp only [Option.map_some', h]

theorem parse_tokens_drop_cont (ys : List Token) : ∀ (fuel : Nat) (u : List Token)
    (level : Nat) (parts : List PartParse) (cur : List Token),
    u.length + ys.length + 1 < fuel →
    parse_tokens fuel (u ++ Token.continuation :: ys) level parts cur =
      (parse_tokens fuel (u ++ ys) level parts cur).map
        (fun pr => (pr.1, reinsert_cont ys pr.2)) := by
  intro fuel
  induction fuel with
  | zero => intro u level parts cur hf; omega
  | succ fuel ih =>
    intro u level parts cur hf
    cases u with
    | nil =>
      simp only [List.nil_append, List.length_nil] at hf ⊢
      rw [show parse_tokens (fuel + 1) (Token.continuation :: ys) level parts cur =
        parse_tokens fuel ys level parts cur from rfl]
      rw [parse_tokens_fuel_succ fuel ys level parts cur (by omega)]
      rcases hres : parse_tokens fuel ys level parts cur with _ | ⟨r, rem⟩
      · rfl
      · have hrem : rem <:+ ys := parse_tokens_suffix fuel ys _ _ _ _ _ hres
        simp [reinsert_cont_small hrem.length_le]
    | cons t u2 =>
      have hf2 : u2.length + ys.length + 1 < fuel := by
        simp only [List.length_cons] at hf
        omega
      cases t with
      | error e =>
        simp only [List.cons_append, parse_tokens]
        exact (map_reinsert_big _ _).symm
      | pipe =>
        simp only [List.cons_append, parse_tokens]
        rcases hfl : flush_cmd cur parts with _ | fl
        · rfl
        · rcases fl with parts2 | e
          · exact ih u2 level (parts2 ++ [.sep .pipe]) [] hf2
          · exact (map_reinsert_big _ _).symm
      | and =>
        simp only [List.cons_append, parse_tokens]
        rcases hfl : flush_cmd cur parts with _ | fl
        · rfl
        · rcases fl with parts2 | e
          · exact ih u2 level (parts2 ++ [.sep .and]) [] hf2
          · exact (map_reinsert_big _ _).symm
      | or =>
        simp only [List.cons_append, parse_tokens]
        rcases hfl : flush_cmd cur parts with _ | fl
        · rfl
        · rcases fl with parts2 | e
          · exact ih u2 level (parts2 ++ [.sep .or]) [] hf2
          · exact (map_reinsert_big _ _).symm
      | background =>
        simp only [List.cons_append, parse_tokens]
        rcases hfl : flush_cmd cur parts with _ | fl
        · rfl
        · rcases fl with parts2 | e
          · exact ih u2 level (parts2 ++ [.sep .background]) [] hf2
          · exact (map_reinsert_big _ _).symm
      | sequence =>
        simp only [List.cons_append, parse_tokens]
        rcases hfl : flush_cmd cur parts with _ | fl
        · rfl
        · rcases fl with parts2 | e
          · exact ih u2 level (parts2 ++ [.sep .sequence]) [] hf2
          · exact (map_reinsert_big _ _).symm
      | open_subshell =>
        simp only [List.cons_append, parse_tokens]
        rcases hfl : flush_cmd cur parts with _ | fl
        · rfl
        · rcases fl with parts2 | e <;> dsimp only
          · simp only [List.append_eq]
            rw [ih u2 (level + 1) [] [] hf2]
            rcases hin : parse_tokens fuel (u2 ++ ys) (level + 1) [] [] with _ | ⟨r0, rem0⟩
            · rfl
            · have hrem0 : rem0 <:+ u2 ++ ys := parse_tokens_suffix fuel _ _ _ _ _ _ hin
              cases r0 with
              | parsed cl =>
                simp only [Option.map_some']
                by_cases hsmall : rem0.length ≤ ys.length
                · rw [reinsert_cont_small hsmall]
                  rcases hres : parse_tokens fuel rem0.tail level (parts2 ++ [.subshell cl]) []
                    with _ | ⟨r2, rem2⟩ <;> rw [hres]
                  · rfl
                  · have hrem2 : rem2 <:+ rem0.tail :=
                      parse_tokens_suffix fuel _ _ _ _ _ _ hres
                    have hsm2 : rem2.length ≤ ys.length := by
                      have ha := hrem2.length_le
                      have hb : rem0.tail.length ≤ rem0.length := by
                        cases rem0 <;> simp
                      omega
                    simp [reinsert_cont_small hsm2]
                · obtain ⟨w, hwne, hw, hwlen⟩ :=
                    suffix_longer_split hrem0 (by omega)
                  subst hw
                  rw [reinsert_cont_append ys w hwne]
                  rcases w with _ | ⟨w0, w2⟩
                  · exact absurd rfl hwne
                  · simp only [List.cons_append, List.tail_cons]
                    have hlen2 : w2.length + ys.length + 1 < fuel := by
                      simp only [List.length_cons, List.length_append] at hwlen hf2 ⊢
                      omega
                    exact ih w2 level (parts2 ++ [.subshell cl]) [] hlen2
              | continuation_required => rfl
              | error e2 =>
                simp only [Option.map_some']
          · exact (map_reinsert_big _ _).symm
      | close_subshell =>
        simp only [List.cons_append, parse_tokens]
        by_cases hl : level = 0
        · simp only [hl, if_pos rfl]
          exact (map_reinsert_big _ _).symm
        · simp only [hl, if_false]
          rcases hfl : flush_cmd cur parts with _ | fl
          · rfl
          · rcases fl with parts2 | e <;> dsimp only
            · rcases hfp : finish_parse parts2 with _ | r2
              · rfl
              · exact (map_reinsert_big _ _).symm
            · exact (map_reinsert_big _ _).symm
      | continuation =>
        simp only [List.cons_append, parse_tokens]
        exact ih u2 level parts cur hf2
      | string s =>
        simp only [List.cons_append, parse_tokens]
        exact ih u2 level parts (cur ++ [.string s]) hf2
      | redirect_output s =>
        simp only [List.cons_append, parse_tokens]
        exact ih u2 level parts (cur ++ [.redirect_output s]) hf2
      | redirect_error s =>
        simp only [List.cons_append, parse_tokens]
        exact ih u2 level parts (cur ++ [.redirect_error s]) hf2
      | redirect_error_to_output =>
        simp only [List.cons_append, parse_tokens]
        exact ih u2 level parts (cur ++ [.redirect_error_to_output]) hf2
      | redirect_input s =>
        simp only [List.cons_append, parse_tokens]
        exact ih u2 level parts (cur ++ [.redirect_input s]) hf2

/-- C3 (amended): when `tokenize A` ends in a `continuation` token and
neither line has a lexical error, re-parsing the concatenation
`tokenize A ++ tokenize B` is equivalent to parsing the same token
sequence with the stray `continuation` token removed, provided `B`
contributes at least one token — the parser simply drops the mid-stream
continuation token.  (Equivalence with parsing the raw lines joined by a
space, as originally claimed, fails: see the counterexample, where the
joined line turns the trailing backslash into a literal word.) -/
theorem c3_amended_concat_drops_continuation (A B : String) (ta tb : List Token)
    (hA : tokenize A = some ta) (hB : tokenize B = some tb)
    (hcont : ta.getLast? = some Token.continuation)
    (hAe : ∀ t ∈ ta, t.isErr = false) (hBe : ∀ t ∈ tb, t.isErr = false)
    (htb : tb ≠ []) :
    parse (ta ++ tb) = parse (ta.dropLast ++ tb) := by
  have hsplit : ta.dropLast ++ [Token.continuation] = ta :=
    List.dropLast_append_getLast? Token.continuation hcont
  have hcomb : ta ++ tb = ta.dropLast ++ Token.continuation :: tb := by
    rw [← hsplit]
    simp
  have hne1 : ta ++ tb ≠ [] := by simp [htb]
  have hne2 : ta.dropLast ++ tb ≠ [] := by simp [htb]
  have hlast1 : (ta ++ tb).getLast? = tb.getLast? := List.getLast?_append_of_ne_nil ta htb
  have hlast2 : (ta.dropLast ++ tb).getLast? = tb.getLast? :=
    List.getLast?_append_of_ne_nil ta.dropLast htb
  by_cases hBcont : tb.getLast? = some Token.continuation
  · rw [parse, if_neg hne1, hlast1, if_pos hBcont, parse, if_neg hne2, hlast2, if_pos hBcont]
  · rw [parse, if_neg hne1, hlast1, if_neg hBcont, parse, if_neg hne2, hlast2, if_neg hBcont]
    rw [hcomb]
    rw [parse_tokens_drop_cont tb ((ta.dropLast ++ Token.continuation :: tb).length + 1)
      ta.dropLast 0 [] [] (by simp)]
    rw [parse_tokens_fuel_ge ((ta.dropLast ++ tb).length + 1)
      ((ta.dropLast ++ Token.continuation :: tb).length + 1) (ta.dropLast ++ tb) 0 [] []
      (by omega) (by simp only [List.length_append, List.length_cons]; omega)]
    rcases parse_tokens ((ta.dropLast ++ tb).length + 1) (ta.dropLast ++ tb) 0 [] []
      with _ | pr
    · rfl
    · rfl

/-- Witness for C3 (amended): the theorem applied to A = "foo \" and
B = "bar". -/
theorem c3_witness :
    parse ([Token.string "foo", Token.continuation] ++ [Token.string "bar"]) =
      parse ([Token.string "foo", Token.continuation].dropLast ++ [Token.string "bar"]) :=
  c3_amended_concat_drops_continuation "foo \\" "bar"
    [Token.string "foo", Token.continuation] [Token.string "bar"]
    (by decide) (by decide) rfl (by decide) (by decide) (by simp)

end Rustsh
